import Mathlib

/-!
Verification development for the tableau-utilities repository.

The development shallowly embeds:
  * the entity model of a Tableau datasource document (columns, folders,
    metadata records, mapping cols, connections, extract mirror) and the
    Datasource.enforce_column operation of
    tableau_utilities/tableau_file/tableau_file.py;
  * the planning pass of TableauDatasourceTasks.execute and the apply-phase
    coordinator TableauDatasourceUpdate.execute of
    airflow_example/dags/tableau_datasource_update/tableau_datasource_update.py;
  * the section codec of Datasource.save / Datasource.__get_section, which
    removes the XML elements of each section from the document root and
    re-inserts the current in-memory entities at the recorded position.

The container/list type tableau_utilities.tableau_file.tableau_file_objects
(TableauFileObjects with get/add/update/delete, and the entity classes) is not
part of the provided sources; its operations are modelled from the spec where
so marked.

Python strings are modelled as Lean strings; the Python operations endswith,
startswith, lower and the slice s[1:-1] are defined below on the underlying
character lists.
-/

namespace TableauUtilities

/-- Model of Python str.endswith. -/
def pyEndsWith (s t : String) : Bool := t.data.isSuffixOf s.data

/-- Model of Python str.startswith. -/
def pyStartsWith (s t : String) : Bool := t.data.isPrefixOf s.data

/-- Model of Python str.lower (ASCII). -/
def pyLower (s : String) : String := ⟨s.data.map Char.toLower⟩

/-- Model of the Python slice s[1:-1], which drops the first and last character. -/
def pySlice1m1 (s : String) : String := ⟨(s.data.drop 1).dropLast⟩

/-! ## Keyed list operations

Modelled from the spec: the class TableauFileObjects of
tableau_file_objects.py is missing from the sources.  Per spec section 4.2
each list-backed section supports get by key, add (failing with a duplicate
key error when the key exists), update (replacing the existing entity with the
same key) and delete by key, and list order is insertion order. -/

/-- Modelled from the spec: TableauFileObjects.get, first entity whose key matches. -/
def tfoGet {α : Type} (key : α → String) (l : List α) (k : String) : Option α :=
  l.find? (fun x => key x == k)

/-- Modelled from the spec: TableauFileObjects.add, appends, failing when the key exists. -/
def tfoAdd {α : Type} (key : α → String) (l : List α) (e : α) : Except String (List α) :=
  if (tfoGet key l (key e)).isSome then
    Except.error ("Duplicate key: " ++ key e)
  else
    Except.ok (l ++ [e])

/-- Modelled from the spec: TableauFileObjects.update, replaces the first entity
with the same key, leaving the list unchanged when the key is absent. -/
def tfoUpdate {α : Type} (key : α → String) : List α → α → List α
  | [], _ => []
  | x :: xs, e => if key x == key e then e :: xs else x :: tfoUpdate key xs e

/-- Modelled from the spec: TableauFileObjects.delete, removes entities whose key matches. -/
def tfoDelete {α : Type} (key : α → String) (l : List α) (k : String) : List α :=
  l.filter (fun x => key x != k)

/-! ## Entity model -/

/-- A folder-item, the reference to a column inside a folder. -/
structure FolderItem where
  name : String
  deriving DecidableEq

/-- A folder of the folders-common section. -/
structure Folder where
  name : String
  folder_item : List FolderItem
  deriving DecidableEq

/-- A metadata record of a connection. -/
structure MetadataRecord where
  remote_name : String
  local_name : String
  parent_name : String
  ordinal : Nat
  family : Option String
  deriving DecidableEq

/-- A mapping-table entry of the cols section of a connection. -/
structure MappingCol where
  key : String
  value : String
  deriving DecidableEq

/-- A named sub-connection entry, carrying the display caption. -/
structure NamedConnection where
  name : String
  caption : String
  deriving DecidableEq

/-- The attribute set of a sub-connection of a given connection class. -/
structure SubConnection where
  class_name : String
  dbname : String
  schema : String
  server : String
  service : String
  username : String
  warehouse : String
  deriving DecidableEq

/-- The relation of a connection. -/
structure Relation where
  name : String
  deriving DecidableEq

/-- The parent connection section: named sub-connections, the relation, the
metadata records and the mapping cols. -/
structure ParentConnection where
  named_connections : List NamedConnection
  connections : List SubConnection
  relation : Relation
  metadata_records : List MetadataRecord
  cols : List MappingCol
  deriving DecidableEq

/-- The extract section, carrying the mirrored extract connection. -/
structure Extract where
  connection : ParentConnection
  deriving DecidableEq

/-- A column entity. -/
structure Column where
  name : String
  caption : String
  datatype : String
  role : String
  role_type : String
  calculation : Option String
  deriving DecidableEq

/-- The layout section; enforce_column sets show_structure to false. -/
structure Layout where
  show_structure : Bool
  deriving DecidableEq

/-- The folders-common section, a list of folders. -/
structure FoldersCommon where
  folder : List Folder
  deriving DecidableEq

/-- The in-memory entity model of a Datasource: the sections touched by
enforce_column and by the planner.  The extract mirror is optional, modelling
the Python falsy check on a default Extract object. -/
structure Datasource where
  connection : ParentConnection
  columns : List Column
  folders_common : FoldersCommon
  extract : Option Extract
  layout : Layout
  deriving DecidableEq

/-! ## enforce_column (tableau_file.py lines 221-308) -/

/-- The mapping-col upsert of enforce_column (tableau_file.py lines 276-286):
if the exact entry is already present the table is left alone; otherwise every
entry matching by key or by value is overwritten with the new entry, and the
new entry is appended when none matched. -/
def upsertMappingCol (cols : List MappingCol) (c : MappingCol) : List MappingCol :=
  if cols.contains c then cols
  else if cols.any (fun col => c.key == col.key || c.value == col.value) then
    cols.map (fun col => if c.key == col.key || c.value == col.value then c else col)
  else cols ++ [c]

/-- Step one of enforce_column (tableau_file.py lines 238-243): add the column
when absent, update it when present.  Membership is by column name, per spec
section 4.5 step 1 (the entity equality of the missing tableau_file_objects is
modelled from the spec as key equality). -/
def enforceColumnAdd (ds : Datasource) (column : Column) : Except String Datasource := do
  if (tfoGet Column.name ds.columns column.name).isNone then
    let cs ← tfoAdd Column.name ds.columns column
    pure { ds with columns := cs }
  else
    pure { ds with columns := tfoUpdate Column.name ds.columns column }

/-- Step two of enforce_column (tableau_file.py lines 245-262): move the
column's folder-item out of its previous folder if it is being moved, add it
to the requested folder (creating the folder when missing), and mark the
layout to show folders. -/
def enforceColumnFolder (ds : Datasource) (column : Column) :
    Option String → Except String Datasource
  | none => pure ds
  | some fname => do
    let current_folder :=
      ds.folders_common.folder.filter
        (fun f => (tfoGet FolderItem.name f.folder_item column.name).isSome)
    let ds ←
      match current_folder.head? with
      | some cf =>
        if cf.name ≠ fname then
          let cf' := { cf with folder_item := tfoDelete FolderItem.name cf.folder_item column.name }
          pure { ds with folders_common := ⟨tfoUpdate Folder.name ds.folders_common.folder cf'⟩ }
        else
          pure ds
      | none => pure ds
    let folder := tfoGet Folder.name ds.folders_common.folder fname
    let folder_item : FolderItem := ⟨column.name⟩
    let ds ←
      match folder with
      | some fo =>
        if folder_item ∉ fo.folder_item then
          let fo' := { fo with folder_item := fo.folder_item ++ [folder_item] }
          pure { ds with folders_common := ⟨tfoUpdate Folder.name ds.folders_common.folder fo'⟩ }
        else
          pure ds
      | none => do
        let fl ← tfoAdd Folder.name ds.folders_common.folder ⟨fname, [folder_item]⟩
        pure { ds with folders_common := ⟨fl⟩ }
    pure { ds with layout := { ds.layout with show_structure := false } }

/-- Steps three to six of enforce_column (tableau_file.py lines 264-308):
when a non-empty remote name is given and the column is not a calculation,
look the metadata record up in the primary connection (failing when absent),
point its local-name at the column, upsert the mapping col, and repeat both
steps against the extract connection when the extract exists. -/
def enforceColumnMetadata (ds : Datasource) (column : Column) :
    Option String → Except String Datasource
  | none => pure ds
  | some r =>
    if r == "" || column.calculation.isSome then pure ds
    else
      match tfoGet MetadataRecord.remote_name ds.connection.metadata_records r with
      | none =>
        Except.error ("Remote name provided is not in the metadata of the connection: " ++ r)
      | some connection_record =>
        let connection_record := { connection_record with local_name := column.name }
        let mrs := tfoUpdate MetadataRecord.remote_name ds.connection.metadata_records
          connection_record
        let conn_col : MappingCol :=
          ⟨column.name, connection_record.parent_name ++ ".[" ++ r ++ "]"⟩
        let cols := upsertMappingCol ds.connection.cols conn_col
        let ds := { ds with connection :=
          { ds.connection with metadata_records := mrs, cols := cols } }
        match ds.extract with
        | none => pure ds
        | some ext =>
          match tfoGet MetadataRecord.remote_name ext.connection.metadata_records r with
          | none =>
            Except.error ("Remote name provided is not in the metadata of the extract: " ++ r)
          | some extract_record =>
            let extract_record := { extract_record with local_name := column.name }
            let emrs := tfoUpdate MetadataRecord.remote_name ext.connection.metadata_records
              extract_record
            let extract_col : MappingCol :=
              ⟨column.name, extract_record.parent_name ++ ".[" ++ r ++ "]"⟩
            let ecols := upsertMappingCol ext.connection.cols extract_col
            pure { ds with extract := some { ext with connection :=
              { ext.connection with metadata_records := emrs, cols := ecols } } }

/-- Datasource.enforce_column (tableau_file.py lines 221-308). -/
def enforceColumn (ds : Datasource) (column : Column) (folder_name : Option String)
    (remote_name : Option String) : Except String Datasource := do
  let ds ← enforceColumnAdd ds column
  let ds ← enforceColumnFolder ds column folder_name
  enforceColumnMetadata ds column remote_name

/-! ## Helper lemmas about the keyed list operations -/

theorem tfoGet_eq_some {α : Type} {key : α → String} {l : List α} {k : String} {x : α}
    (h : tfoGet key l k = some x) : x ∈ l ∧ key x = k := by
  refine ⟨List.mem_of_find?_eq_some h, ?_⟩
  have := List.find?_some h
  simpa using this

theorem tfoGet_eq_none {α : Type} {key : α → String} {l : List α} {k : String} :
    tfoGet key l k = none ↔ ∀ x ∈ l, key x ≠ k := by
  simp [tfoGet, List.find?_eq_none]

theorem tfoGet_isSome {α : Type} {key : α → String} {l : List α} {k : String} :
    (tfoGet key l k).isSome ↔ ∃ x ∈ l, key x = k := by
  simp [tfoGet, List.find?_isSome]

theorem tfoAdd_of_get_none {α : Type} {key : α → String} {l : List α} {e : α}
    (h : tfoGet key l (key e) = none) : tfoAdd key l e = Except.ok (l ++ [e]) := by
  simp [tfoAdd, h]

theorem tfoUpdate_map_key {α : Type} (key : α → String) (l : List α) (e : α) :
    (tfoUpdate key l e).map key = l.map key := by
  induction l with
  | nil => rfl
  | cons x xs ih =>
    by_cases h : (key x == key e) = true
    · simp only [tfoUpdate]
      rw [if_pos h]
      simp only [List.map_cons]
      rw [show key e = key x from (beq_iff_eq.mp h).symm]
    · simp only [tfoUpdate]
      rw [if_neg h]
      simp [ih]

theorem tfoUpdate_length {α : Type} (key : α → String) (l : List α) (e : α) :
    (tfoUpdate key l e).length = l.length := by
  have := congrArg List.length (tfoUpdate_map_key key l e)
  simpa using this

theorem tfoUpdate_eq_map_of_nodup {α : Type} {key : α → String} {l : List α} {e : α}
    (hnd : (l.map key).Nodup) :
    tfoUpdate key l e = l.map (fun x => if key x = key e then e else x) := by
  induction l with
  | nil => rfl
  | cons x xs ih =>
    simp only [List.map_cons, List.nodup_cons] at hnd
    by_cases h : key x = key e
    · simp only [tfoUpdate]
      rw [if_pos (beq_iff_eq.mpr h)]
      simp only [List.map_cons, if_pos h]
      have hxs : xs.map (fun y => if key y = key e then e else y) = xs := by
        have hcong : xs.map (fun y => if key y = key e then e else y) = xs.map id := by
          apply List.map_congr_left
          intro y hy
          have hne : key y ≠ key e := by
            intro hc
            exact hnd.1 (by rw [h, ← hc]; exact List.mem_map_of_mem key hy)
          simp [hne]
        rw [hcong, List.map_id]
      rw [hxs]
    · simp only [tfoUpdate]
      rw [if_neg (by simpa using h)]
      simp only [List.map_cons, if_neg h]
      rw [ih hnd.2]

theorem folderItem_mem_iff_get (items : List FolderItem) (n : String) :
    (⟨n⟩ : FolderItem) ∈ items ↔ (tfoGet FolderItem.name items n).isSome := by
  rw [tfoGet_isSome]
  constructor
  · intro h; exact ⟨⟨n⟩, h, rfl⟩
  · rintro ⟨⟨m⟩, hm, he⟩
    cases he
    exact hm

/-! ## Characterization of the enforce_column stages -/

theorem except_ok_bind {ε α β : Type} (a : α) (f : α → Except ε β) :
    (Except.ok a : Except ε α) >>= f = f a := rfl

theorem except_error_bind {ε α β : Type} (e : ε) (f : α → Except ε β) :
    (Except.error e : Except ε α) >>= f = Except.error e := rfl

theorem enforceColumnAdd_eq (ds : Datasource) (c : Column) :
    enforceColumnAdd ds c = Except.ok { ds with columns :=
      (if (tfoGet Column.name ds.columns c.name).isNone
       then ds.columns ++ [c] else tfoUpdate Column.name ds.columns c) } := by
  unfold enforceColumnAdd
  by_cases h : (tfoGet Column.name ds.columns c.name).isNone
  · rw [if_pos h, if_pos h, tfoAdd_of_get_none (Option.isNone_iff_eq_none.mp h)]
    rfl
  · rw [if_neg h, if_neg h]
    rfl

theorem enforceColumnFolder_ok (ds : Datasource) (c : Column) (fn : Option String) :
    ∃ ds₂, enforceColumnFolder ds c fn = Except.ok ds₂ ∧
      ds₂.connection = ds.connection ∧ ds₂.extract = ds.extract ∧ ds₂.columns = ds.columns := by
  cases fn with
  | none => exact ⟨ds, rfl, rfl, rfl, rfl⟩
  | some fname =>
    simp only [enforceColumnFolder]
    cases h1 : (ds.folders_common.folder.filter
        (fun f => (tfoGet FolderItem.name f.folder_item c.name).isSome)).head? with
    | none =>
      simp only [h1, pure_bind]
      cases h2 : tfoGet Folder.name ds.folders_common.folder fname with
      | some fo =>
        simp only [h2]
        by_cases h3 : (⟨c.name⟩ : FolderItem) ∈ fo.folder_item
        · rw [if_neg (by simpa using h3)]
          exact ⟨_, rfl, rfl, rfl, rfl⟩
        · rw [if_pos (by simpa using h3)]
          exact ⟨_, rfl, rfl, rfl, rfl⟩
      | none =>
        simp only [h2]
        rw [tfoAdd_of_get_none h2, except_ok_bind]
        exact ⟨_, rfl, rfl, rfl, rfl⟩
    | some cf =>
      simp only [h1]
      by_cases h2 : cf.name = fname
      · rw [if_neg (by simp [h2]), pure_bind]
        cases h3 : tfoGet Folder.name ds.folders_common.folder fname with
        | some fo =>
          simp only [h3]
          by_cases h4 : (⟨c.name⟩ : FolderItem) ∈ fo.folder_item
          · rw [if_neg (by simpa using h4)]
            exact ⟨_, rfl, rfl, rfl, rfl⟩
          · rw [if_pos (by simpa using h4)]
            exact ⟨_, rfl, rfl, rfl, rfl⟩
        | none =>
          simp only [h3]
          rw [tfoAdd_of_get_none h3, except_ok_bind]
          exact ⟨_, rfl, rfl, rfl, rfl⟩
      · rw [if_pos (by simpa using h2), pure_bind]
        cases h3 : tfoGet Folder.name
            (tfoUpdate Folder.name ds.folders_common.folder
              { cf with folder_item := tfoDelete FolderItem.name cf.folder_item c.name })
            fname with
        | some fo =>
          simp only [h3]
          by_cases h4 : (⟨c.name⟩ : FolderItem) ∈ fo.folder_item
          · rw [if_neg (by simpa using h4)]
            exact ⟨_, rfl, rfl, rfl, rfl⟩
          · rw [if_pos (by simpa using h4)]
            exact ⟨_, rfl, rfl, rfl, rfl⟩
        | none =>
          simp only [h3]
          rw [tfoAdd_of_get_none h3, except_ok_bind]
          exact ⟨_, rfl, rfl, rfl, rfl⟩

theorem tfoGet_tfoUpdate_of_get {α : Type} {key : α → String} {l : List α} {k : String}
    {x e : α} (h : tfoGet key l k = some x) (hk : key e = k) :
    tfoGet key (tfoUpdate key l e) k = some e := by
  induction l with
  | nil => simp [tfoGet] at h
  | cons y ys ih =>
    by_cases hy : (key y == k) = true
    · have hy' : (key y == key e) = true := by rw [hk]; exact hy
      simp only [tfoUpdate]
      rw [if_pos hy']
      simp [tfoGet, List.find?, beq_iff_eq, hk]
    · have hy' : ¬ ((key y == key e) = true) := by rw [hk]; exact hy
      simp only [tfoUpdate]
      rw [if_neg hy']
      have h' : tfoGet key ys k = some x := by
        simpa [tfoGet, List.find?_cons, hy] using h
      have := ih h'
      simpa [tfoGet, List.find?_cons, hy] using this

theorem enforceColumn_reduces (ds : Datasource) (c : Column) (fn rn : Option String) :
    ∃ ds₂, enforceColumn ds c fn rn = enforceColumnMetadata ds₂ c rn ∧
      ds₂.connection = ds.connection ∧ ds₂.extract = ds.extract := by
  obtain ⟨ds₂, hf, hconn, hext, hcols⟩ := enforceColumnFolder_ok
    { ds with columns :=
      (if (tfoGet Column.name ds.columns c.name).isNone
       then ds.columns ++ [c] else tfoUpdate Column.name ds.columns c) } c fn
  refine ⟨ds₂, ?_, hconn, hext⟩
  unfold enforceColumn
  rw [enforceColumnAdd_eq, except_ok_bind, hf, except_ok_bind]

/-- Case analysis of the metadata stage of enforce_column for a non-empty
remote name on a non-calculated column: either it fails because a lookup
failed, or it succeeds having pointed the local-names at the column without
creating or removing metadata records. -/
theorem enforceColumnMetadata_cases (ds : Datasource) (c : Column) (r : String)
    (hcalc : c.calculation = none) (hr : r ≠ "") :
    (∃ err, enforceColumnMetadata ds c (some r) = Except.error err ∧
      (tfoGet MetadataRecord.remote_name ds.connection.metadata_records r = none ∨
       ∃ ext, ds.extract = some ext ∧
         tfoGet MetadataRecord.remote_name ext.connection.metadata_records r = none)) ∨
    (∃ ds', enforceColumnMetadata ds c (some r) = Except.ok ds' ∧
      ds'.columns = ds.columns ∧ ds'.folders_common = ds.folders_common ∧
      (tfoGet MetadataRecord.remote_name ds.connection.metadata_records r).isSome ∧
      ds'.connection.metadata_records.map MetadataRecord.remote_name =
        ds.connection.metadata_records.map MetadataRecord.remote_name ∧
      (∃ m, tfoGet MetadataRecord.remote_name ds'.connection.metadata_records r = some m ∧
        m.local_name = c.name) ∧
      (ds.extract = none → ds'.extract = none) ∧
      (∀ ext, ds.extract = some ext →
        (tfoGet MetadataRecord.remote_name ext.connection.metadata_records r).isSome ∧
        ∃ ext', ds'.extract = some ext' ∧
          ext'.connection.metadata_records.map MetadataRecord.remote_name =
            ext.connection.metadata_records.map MetadataRecord.remote_name ∧
          ∃ me, tfoGet MetadataRecord.remote_name ext'.connection.metadata_records r = some me ∧
            me.local_name = c.name)) := by
  have hcond : ¬ ((r == "" || c.calculation.isSome) = true) := by simp [hr, hcalc]
  simp only [enforceColumnMetadata]
  rw [if_neg hcond]
  cases hm : tfoGet MetadataRecord.remote_name ds.connection.metadata_records r with
  | none =>
    dsimp only
    exact Or.inl ⟨_, rfl, Or.inl rfl⟩
  | some rec =>
    have hkey : MetadataRecord.remote_name { rec with local_name := c.name } = r :=
      (tfoGet_eq_some hm).2
    cases hx : ds.extract with
    | none =>
      dsimp only
      refine Or.inr ⟨_, rfl, rfl, rfl, rfl, tfoUpdate_map_key _ _ _, ?_, ?_, ?_⟩
      · exact ⟨_, tfoGet_tfoUpdate_of_get hm hkey, rfl⟩
      · intro _; rfl
      · intro ext hx'
        cases hx'
    | some ext =>
      dsimp only
      cases hme : tfoGet MetadataRecord.remote_name ext.connection.metadata_records r with
      | none =>
        dsimp only
        exact Or.inl ⟨_, rfl, Or.inr ⟨ext, rfl, hme⟩⟩
      | some erec =>
        have hekey : MetadataRecord.remote_name { erec with local_name := c.name } = r :=
          (tfoGet_eq_some hme).2
        dsimp only
        refine Or.inr ⟨_, rfl, rfl, rfl, by simp [hm], tfoUpdate_map_key _ _ _, ?_, ?_, ?_⟩
        · exact ⟨_, tfoGet_tfoUpdate_of_get hm hkey, rfl⟩
        · intro h; cases h
        · intro ext₀ hx'
          cases hx'
          refine ⟨by simp [hme], _, rfl, tfoUpdate_map_key _ _ _, ?_⟩
          exact ⟨_, tfoGet_tfoUpdate_of_get hme hekey, rfl⟩

/-- Claim C5: for a non-calculated column with a non-empty remote name,
enforce_column fails exactly when the remote name is absent from the primary
connection metadata or, when an extract exists, from the extract connection
metadata; and a successful call never creates or removes metadata records. -/
theorem claim_C5_metadata_lookup_errors (ds : Datasource) (c : Column) (fn : Option String)
    (r : String) (hcalc : c.calculation = none) (hr : r ≠ "") :
    ((∃ err, enforceColumn ds c fn (some r) = Except.error err) ↔
      (tfoGet MetadataRecord.remote_name ds.connection.metadata_records r = none ∨
       ∃ ext, ds.extract = some ext ∧
         tfoGet MetadataRecord.remote_name ext.connection.metadata_records r = none)) ∧
    (∀ ds', enforceColumn ds c fn (some r) = Except.ok ds' →
      ds'.connection.metadata_records.map MetadataRecord.remote_name =
        ds.connection.metadata_records.map MetadataRecord.remote_name ∧
      ∀ ext ext', ds.extract = some ext → ds'.extract = some ext' →
        ext'.connection.metadata_records.map MetadataRecord.remote_name =
          ext.connection.metadata_records.map MetadataRecord.remote_name) := by
  obtain ⟨ds₂, heq, hconn, hext⟩ := enforceColumn_reduces ds c fn (some r)
  have hX := enforceColumnMetadata_cases ds₂ c r hcalc hr
  constructor
  · constructor
    · rintro ⟨err, herr⟩
      rw [heq] at herr
      rcases hX with ⟨e₀, he₀, hd⟩ | ⟨ds', hok, _⟩
      · rcases hd with h1 | ⟨ext, hxe, h2⟩
        · left
          rw [← hconn]
          exact h1
        · right
          exact ⟨ext, by rw [← hext]; exact hxe, h2⟩
      · rw [hok] at herr
        cases herr
    · intro hd
      rcases hX with ⟨e₀, he₀, _⟩ | ⟨ds', hok, _, _, hsome, _, _, _, hxall⟩
      · exact ⟨e₀, by rw [heq]; exact he₀⟩
      · exfalso
        rcases hd with hnone | ⟨ext, hxe, hnone⟩
        · rw [← hconn] at hnone
          rw [hnone] at hsome
          simp at hsome
        · have hxe₂ : ds₂.extract = some ext := by rw [hext]; exact hxe
          obtain ⟨hesome, _⟩ := hxall ext hxe₂
          rw [hnone] at hesome
          simp at hesome
  · intro ds' hok
    rw [heq] at hok
    rcases hX with ⟨e₀, he₀, _⟩ | ⟨ds'', hok', _, _, _, hmap, _, _, hxall⟩
    · rw [he₀] at hok
      cases hok
    · rw [hok'] at hok
      have hds : ds'' = ds' := Except.ok.inj hok
      subst hds
      rw [hconn] at hmap
      refine ⟨hmap, ?_⟩
      intro ext ext' hxe hxe'
      have hxe₂ : ds₂.extract = some ext := by rw [hext]; exact hxe
      obtain ⟨_, ext'', hxe'', hmap', _⟩ := hxall ext hxe₂
      rw [hxe''] at hxe'
      have he : ext'' = ext' := Option.some.inj hxe'
      subst he
      exact hmap'

/-- Witness for claim C5: on a datasource whose primary connection has no
metadata records, enforcing a column with remote name R fails. -/
theorem claim_C5_witness :
    ∃ err, enforceColumn
      ⟨⟨[], [], ⟨"[T]"⟩, [], []⟩, [], ⟨[]⟩, none, ⟨true⟩⟩
      ⟨"[A]", "A", "string", "dimension", "ordinal", none⟩
      none (some "R") = Except.error err :=
  (claim_C5_metadata_lookup_errors
    ⟨⟨[], [], ⟨"[T]"⟩, [], []⟩, [], ⟨[]⟩, none, ⟨true⟩⟩
    ⟨"[A]", "A", "string", "dimension", "ordinal", none⟩
    none "R" rfl (by decide)).1.mpr (Or.inl (by decide))

/-- Claim C4: a successful enforce_column that sets the primary metadata
record local-name leaves the extract record with the same remote name
carrying the same local-name. -/
theorem claim_C4_metadata_lockstep (ds ds' : Datasource) (c : Column) (fn : Option String)
    (r : String) (ext : Extract) (hcalc : c.calculation = none) (hr : r ≠ "")
    (hext : ds.extract = some ext)
    (hok : enforceColumn ds c fn (some r) = Except.ok ds') :
    ∃ m ext' me,
      tfoGet MetadataRecord.remote_name ds'.connection.metadata_records r = some m ∧
      ds'.extract = some ext' ∧
      tfoGet MetadataRecord.remote_name ext'.connection.metadata_records r = some me ∧
      m.local_name = c.name ∧ me.local_name = m.local_name := by
  obtain ⟨ds₂, heq, hconn, hext₂⟩ := enforceColumn_reduces ds c fn (some r)
  rw [heq] at hok
  have hX := enforceColumnMetadata_cases ds₂ c r hcalc hr
  rcases hX with ⟨e₀, he₀, _⟩ | ⟨ds'', hok', _, _, _, _, ⟨m, hgm, hml⟩, _, hxall⟩
  · rw [he₀] at hok
    cases hok
  · rw [hok'] at hok
    have hds : ds'' = ds' := Except.ok.inj hok
    subst hds
    obtain ⟨_, ext', hxe', _, me, hgme, hmel⟩ := hxall ext (hext₂.trans hext)
    exact ⟨m, ext', me, hgm, hxe', hgme, hml, by rw [hmel, hml]⟩

/-- Witness for claim C4 at a concrete datasource carrying an extract mirror:
enforcing column [A] with remote name R leaves both the primary and the
extract metadata record for R pointing at [A]. -/
theorem claim_C4_witness :
    ∃ m ext' me,
      tfoGet MetadataRecord.remote_name
        [(⟨"R", "[A]", "[T]", 0, none⟩ : MetadataRecord)] "R" = some m ∧
      (some ⟨⟨[], [], ⟨"[T2]"⟩, [⟨"R", "[A]", "[T2]", 0, none⟩], [⟨"[A]", "[T2].[R]"⟩]⟩⟩ :
        Option Extract) = some ext' ∧
      tfoGet MetadataRecord.remote_name ext'.connection.metadata_records "R" = some me ∧
      m.local_name = "[A]" ∧ me.local_name = m.local_name :=
  claim_C4_metadata_lockstep
    ⟨⟨[], [], ⟨"[T]"⟩, [⟨"R", "old", "[T]", 0, none⟩], []⟩,
      [], ⟨[]⟩, some ⟨⟨[], [], ⟨"[T2]"⟩, [⟨"R", "old", "[T2]", 0, none⟩], []⟩⟩, ⟨true⟩⟩
    ⟨⟨[], [], ⟨"[T]"⟩, [⟨"R", "[A]", "[T]", 0, none⟩], [⟨"[A]", "[T].[R]"⟩]⟩,
      [⟨"[A]", "A", "string", "dimension", "ordinal", none⟩], ⟨[]⟩,
      some ⟨⟨[], [], ⟨"[T2]"⟩, [⟨"R", "[A]", "[T2]", 0, none⟩], [⟨"[A]", "[T2].[R]"⟩]⟩⟩,
      ⟨true⟩⟩
    ⟨"[A]", "A", "string", "dimension", "ordinal", none⟩ none "R"
    ⟨⟨[], [], ⟨"[T2]"⟩, [⟨"R", "old", "[T2]", 0, none⟩], []⟩⟩
    rfl (by decide) rfl (by rfl)

/-! ## Folder exclusivity helpers -/

theorem tfoGet_tfoDelete_self {α : Type} (key : α → String) (l : List α) (k : String) :
    tfoGet key (tfoDelete key l k) k = none := by
  rw [tfoGet, List.find?_eq_none]
  intro x hx
  have := (List.mem_filter.mp hx).2
  simpa using this

theorem tfoGet_append_self {α : Type} (key : α → String) (l : List α) (e : α) :
    (tfoGet key (l ++ [e]) (key e)).isSome = true := by
  rw [tfoGet_isSome]
  exact ⟨e, List.mem_append_right l (List.mem_singleton_self e), rfl⟩

theorem filter_key_singleton {α : Type} {key : α → String} {l : List α} {x : α} {k : String}
    (hnd : (l.map key).Nodup) (hx : x ∈ l) (hk : key x = k) :
    l.filter (fun y => key y == k) = [x] := by
  induction l with
  | nil => cases hx
  | cons y ys ih =>
    simp only [List.map_cons, List.nodup_cons] at hnd
    by_cases hy : (key y == k) = true
    · have hxy : x = y := by
        rcases List.mem_cons.mp hx with h | h
        · exact h
        · exfalso
          apply hnd.1
          rw [beq_iff_eq.mp hy, ← hk]
          exact List.mem_map_of_mem key h
      have hnil : ys.filter (fun z => key z == k) = [] := by
        rw [List.filter_eq_nil_iff]
        intro z hz hkz
        apply hnd.1
        rw [beq_iff_eq.mp hy, ← beq_iff_eq.mp hkz]
        exact List.mem_map_of_mem key hz
      rw [List.filter_cons, if_pos hy, hnil, hxy]
    · have hxy : x ∈ ys := by
        rcases List.mem_cons.mp hx with h | h
        · exfalso; exact hy (beq_iff_eq.mpr (h ▸ hk))
        · exact h
      rw [List.filter_cons, if_neg hy]
      exact ih hnd.2 hxy

theorem tfoGet_of_nodup {α : Type} {key : α → String} {l : List α} {x : α} {k : String}
    (hnd : (l.map key).Nodup) (hx : x ∈ l) (hk : key x = k) :
    tfoGet key l k = some x := by
  induction l with
  | nil => cases hx
  | cons y ys ih =>
    simp only [List.map_cons, List.nodup_cons] at hnd
    by_cases hy : (key y == k) = true
    · have hxy : x = y := by
        rcases List.mem_cons.mp hx with h | h
        · exact h
        · exfalso
          apply hnd.1
          rw [beq_iff_eq.mp hy, ← hk]
          exact List.mem_map_of_mem key h
      rw [tfoGet, List.find?_cons, hy, hxy]
    · have hxy : x ∈ ys := by
        rcases List.mem_cons.mp hx with h | h
        · exfalso; exact hy (beq_iff_eq.mpr (h ▸ hk))
        · exact h
      rw [tfoGet, List.find?_cons, Bool.eq_false_iff.mpr hy]
      exact ih hnd.2 hxy

/-- After replacing the folder named B by a new value nf of the same name that
holds an item named n, over a folder list in which no folder held an item
named n, the folders holding an item named n are exactly the one named B. -/
theorem folder_insert_filter {F : List Folder} {n B : String} {fo nf : Folder}
    (hnone : ∀ f ∈ F, (tfoGet FolderItem.name f.folder_item n).isSome = false)
    (hnd : (F.map Folder.name).Nodup)
    (hget : tfoGet Folder.name F B = some fo)
    (hnfname : nf.name = fo.name)
    (hnfP : (tfoGet FolderItem.name nf.folder_item n).isSome = true) :
    ((tfoUpdate Folder.name F nf).filter
      (fun f => (tfoGet FolderItem.name f.folder_item n).isSome)).map Folder.name = [B] := by
  obtain ⟨hmem, hname⟩ := tfoGet_eq_some hget
  have hup := @tfoUpdate_eq_map_of_nodup Folder Folder.name F nf hnd
  rw [hup, List.filter_map, List.map_map]
  have hfil : F.filter ((fun f => (tfoGet FolderItem.name f.folder_item n).isSome) ∘
      (fun x => if Folder.name x = Folder.name nf then nf else x)) =
      F.filter (fun y => Folder.name y == B) := by
    apply List.filter_congr
    intro x hxm
    simp only [Function.comp_apply]
    by_cases hxn : Folder.name x = Folder.name nf
    · rw [if_pos hxn]
      have hxB : Folder.name x = B := by rw [hxn, hnfname, hname]
      simp [hnfP, hxB]
    · rw [if_neg hxn]
      have hxB : ¬ (Folder.name x = B) := by
        intro h
        exact hxn (by rw [h, hnfname, hname])
      simp [hnone x hxm, hxB]
  rw [hfil, filter_key_singleton hnd hmem hname]
  simp only [List.map_cons, List.map_nil, Function.comp_apply]
  rw [if_pos hnfname.symm, hnfname, hname]

/-- The folder stage of enforce_column with a folder name B, on a document in
which the column sits in at most one folder and folder names are unique,
leaves the column's folder-item in exactly the folder named B. -/
theorem enforceColumnFolder_spec (ds : Datasource) (c : Column) (B : String)
    (huniq : (ds.folders_common.folder.filter
      (fun f => (tfoGet FolderItem.name f.folder_item c.name).isSome)).length ≤ 1)
    (hnodup : (ds.folders_common.folder.map Folder.name).Nodup) :
    ∃ ds₂, enforceColumnFolder ds c (some B) = Except.ok ds₂ ∧
      (ds₂.folders_common.folder.filter
        (fun f => (tfoGet FolderItem.name f.folder_item c.name).isSome)).map Folder.name
        = [B] := by
  simp only [enforceColumnFolder]
  cases hfil : ds.folders_common.folder.filter
      (fun f => (tfoGet FolderItem.name f.folder_item c.name).isSome) with
  | nil =>
    have hnone : ∀ f ∈ ds.folders_common.folder,
        (tfoGet FolderItem.name f.folder_item c.name).isSome = false := fun f hf =>
      Bool.eq_false_iff.mpr (List.filter_eq_nil_iff.mp hfil f hf)
    dsimp only [List.head?]
    rw [pure_bind]
    cases hget : tfoGet Folder.name ds.folders_common.folder B with
    | some fo =>
      dsimp only
      have hnotin : (⟨c.name⟩ : FolderItem) ∉ fo.folder_item := by
        rw [folderItem_mem_iff_get]
        simp [hnone fo (tfoGet_eq_some hget).1]
      rw [if_pos hnotin, pure_bind]
      refine ⟨_, rfl, ?_⟩
      exact folder_insert_filter hnone hnodup hget rfl
        (tfoGet_append_self FolderItem.name fo.folder_item ⟨c.name⟩)
    | none =>
      dsimp only
      rw [tfoAdd_of_get_none hget, except_ok_bind, pure_bind]
      refine ⟨_, rfl, ?_⟩
      have hP : (tfoGet FolderItem.name ([⟨c.name⟩] : List FolderItem) c.name).isSome = true :=
        tfoGet_isSome.mpr ⟨⟨c.name⟩, by simp, rfl⟩
      rw [List.filter_append, hfil]
      simp [hP]
  | cons cf t =>
    have ht : t = [] := by
      rw [hfil] at huniq
      have hlen : t.length + 1 ≤ 1 := by simpa using huniq
      exact List.length_eq_zero.mp (Nat.le_zero.mp (Nat.succ_le_succ_iff.mp hlen))
    subst ht
    have hcfF : cf ∈ ds.folders_common.folder ∧
        (tfoGet FolderItem.name cf.folder_item c.name).isSome = true := by
      have : cf ∈ ds.folders_common.folder.filter
          (fun f => (tfoGet FolderItem.name f.folder_item c.name).isSome) := by
        rw [hfil]; exact List.mem_singleton_self cf
      exact List.mem_filter.mp this
    have honly : ∀ f ∈ ds.folders_common.folder,
        (tfoGet FolderItem.name f.folder_item c.name).isSome = true → f = cf := by
      intro f hf hP
      have : f ∈ ds.folders_common.folder.filter
          (fun f => (tfoGet FolderItem.name f.folder_item c.name).isSome) :=
        List.mem_filter.mpr ⟨hf, hP⟩
      rw [hfil] at this
      simpa using this
    dsimp only [List.head?]
    by_cases h2 : cf.name = B
    · rw [if_neg (by simp [h2]), pure_bind]
      have hget : tfoGet Folder.name ds.folders_common.folder B = some cf :=
        tfoGet_of_nodup hnodup hcfF.1 h2
      rw [hget]
      dsimp only
      have hin : (⟨c.name⟩ : FolderItem) ∈ cf.folder_item :=
        (folderItem_mem_iff_get _ _).mpr hcfF.2
      rw [if_neg (not_not_intro hin), pure_bind]
      refine ⟨_, rfl, ?_⟩
      rw [hfil]
      simp [h2]
    · rw [if_pos h2, pure_bind]
      have hnd₂ : ((tfoUpdate Folder.name ds.folders_common.folder
          { cf with folder_item := tfoDelete FolderItem.name cf.folder_item c.name }).map
            Folder.name).Nodup := by
        rw [tfoUpdate_map_key]
        exact hnodup
      have hnone₂ : ∀ f ∈ tfoUpdate Folder.name ds.folders_common.folder
          { cf with folder_item := tfoDelete FolderItem.name cf.folder_item c.name },
          (tfoGet FolderItem.name f.folder_item c.name).isSome = false := by
        intro f hf
        rw [@tfoUpdate_eq_map_of_nodup Folder Folder.name ds.folders_common.folder
          { cf with folder_item := tfoDelete FolderItem.name cf.folder_item c.name }
          hnodup] at hf
        obtain ⟨x, hx, hgx⟩ := List.mem_map.mp hf
        by_cases hxc : Folder.name x = Folder.name
            { cf with folder_item := tfoDelete FolderItem.name cf.folder_item c.name }
        · rw [if_pos hxc] at hgx
          rw [← hgx]
          simp [tfoGet_tfoDelete_self]
        · rw [if_neg hxc] at hgx
          rw [← hgx]
          by_contra hPx
          have hPx' : (tfoGet FolderItem.name x.folder_item c.name).isSome = true := by
            cases h : (tfoGet FolderItem.name x.folder_item c.name).isSome
            · exact absurd h hPx
            · rfl
          exact hxc (by rw [honly x hx hPx'])
      cases hget₂ : tfoGet Folder.name
          (tfoUpdate Folder.name ds.folders_common.folder
            { cf with folder_item := tfoDelete FolderItem.name cf.folder_item c.name }) B with
      | some fo =>
        dsimp only
        have hnotin : (⟨c.name⟩ : FolderItem) ∉ fo.folder_item := by
          rw [folderItem_mem_iff_get]
          simp [hnone₂ fo (tfoGet_eq_some hget₂).1]
        rw [if_pos hnotin, pure_bind]
        refine ⟨_, rfl, ?_⟩
        exact folder_insert_filter hnone₂ hnd₂ hget₂ rfl
          (tfoGet_append_self FolderItem.name fo.folder_item ⟨c.name⟩)
      | none =>
        dsimp only
        rw [tfoAdd_of_get_none hget₂, except_ok_bind, pure_bind]
        refine ⟨_, rfl, ?_⟩
        have hP : (tfoGet FolderItem.name ([⟨c.name⟩] : List FolderItem) c.name).isSome = true :=
          tfoGet_isSome.mpr ⟨⟨c.name⟩, by simp, rfl⟩
        rw [List.filter_append]
        rw [List.filter_eq_nil_iff.mpr (fun f hf => by simp [hnone₂ f hf])]
        simp [hP]

theorem enforceColumnMetadata_preserves (ds : Datasource) (c : Column) (rn : Option String)
    (ds' : Datasource) (h : enforceColumnMetadata ds c rn = Except.ok ds') :
    ds'.folders_common = ds.folders_common ∧ ds'.columns = ds.columns := by
  cases rn with
  | none =>
    simp only [enforceColumnMetadata] at h
    have hd := Except.ok.inj h
    subst hd
    exact ⟨rfl, rfl⟩
  | some r =>
    simp only [enforceColumnMetadata] at h
    by_cases hc : (r == "" || c.calculation.isSome) = true
    · rw [if_pos hc] at h
      have hd := Except.ok.inj h
      subst hd
      exact ⟨rfl, rfl⟩
    · rw [if_neg hc] at h
      cases hm : tfoGet MetadataRecord.remote_name ds.connection.metadata_records r with
      | none => simp only [hm] at h; cases h
      | some rec =>
        simp only [hm] at h
        cases hx : ds.extract with
        | none =>
          simp only [hx] at h
          have hd := Except.ok.inj h
          subst hd
          exact ⟨rfl, rfl⟩
        | some ext =>
          simp only [hx] at h
          cases hme : tfoGet MetadataRecord.remote_name ext.connection.metadata_records r with
          | none => simp only [hme] at h; cases h
          | some erec =>
            simp only [hme] at h
            have hd := Except.ok.inj h
            subst hd
            exact ⟨rfl, rfl⟩

/-- Claim C3: on a document in which the column sits in at most one folder and
folder names are unique, a successful enforce_column with folder name B leaves
the column's folder-item in exactly one folder document-wide, the one named B. -/
theorem claim_C3_folder_exclusivity (ds ds' : Datasource) (c : Column) (B : String)
    (rn : Option String)
    (huniq : (ds.folders_common.folder.filter
      (fun f => (tfoGet FolderItem.name f.folder_item c.name).isSome)).length ≤ 1)
    (hnodup : (ds.folders_common.folder.map Folder.name).Nodup)
    (hok : enforceColumn ds c (some B) rn = Except.ok ds') :
    (ds'.folders_common.folder.filter
      (fun f => (tfoGet FolderItem.name f.folder_item c.name).isSome)).map Folder.name
      = [B] := by
  unfold enforceColumn at hok
  rw [enforceColumnAdd_eq, except_ok_bind] at hok
  obtain ⟨ds₂, hf2, hprop⟩ := enforceColumnFolder_spec
    { ds with columns :=
      (if (tfoGet Column.name ds.columns c.name).isNone
       then ds.columns ++ [c] else tfoUpdate Column.name ds.columns c) } c B huniq hnodup
  rw [hf2, except_ok_bind] at hok
  obtain ⟨hfold, hcols⟩ := enforceColumnMetadata_preserves ds₂ c rn ds' hok
  rw [hfold]
  exact hprop

/-- Witness for claim C3: the column [A] starts in folder FA and is enforced
into folder FB; afterwards FB is the only folder holding its folder-item. -/
theorem claim_C3_witness :
    (([(⟨"FA", []⟩ : Folder), ⟨"FB", [⟨"[A]"⟩]⟩].filter
      (fun f => (tfoGet FolderItem.name f.folder_item "[A]").isSome)).map Folder.name)
      = ["FB"] :=
  claim_C3_folder_exclusivity
    ⟨⟨[], [], ⟨"[T]"⟩, [], []⟩, [], ⟨[⟨"FA", [⟨"[A]"⟩]⟩]⟩, none, ⟨true⟩⟩
    ⟨⟨[], [], ⟨"[T]"⟩, [], []⟩,
      [⟨"[A]", "A", "string", "dimension", "ordinal", none⟩],
      ⟨[⟨"FA", []⟩, ⟨"FB", [⟨"[A]"⟩]⟩]⟩, none, ⟨false⟩⟩
    ⟨"[A]", "A", "string", "dimension", "ordinal", none⟩ "FB" none
    (by decide) (by decide) (by rfl)

/-! ## Claim C6: the mapping-col upsert -/

/-- Claim C6: when enforce_column upserts the mapping-table entry, an exactly
matching entry leaves the table unchanged; otherwise every entry matching by
key or by value is overwritten in place with the new key and value; a new
entry is appended only when no entry matches by key or by value, so the append
never introduces a second entry with an existing key or value. -/
theorem claim_C6_mapping_upsert (cols : List MappingCol) (c : MappingCol) :
    (c ∈ cols → upsertMappingCol cols c = cols) ∧
    (c ∉ cols → (∃ col ∈ cols, c.key = col.key ∨ c.value = col.value) →
      upsertMappingCol cols c =
        cols.map (fun col => if c.key == col.key || c.value == col.value then c else col)) ∧
    ((∀ col ∈ cols, c.key ≠ col.key ∧ c.value ≠ col.value) →
      upsertMappingCol cols c = cols ++ [c]) ∧
    (cols.length < (upsertMappingCol cols c).length →
      ∀ col ∈ cols, c.key ≠ col.key ∧ c.value ≠ col.value) := by
  refine ⟨?_, ?_, ?_, ?_⟩
  · intro h
    unfold upsertMappingCol
    rw [if_pos (List.elem_iff.mpr h)]
  · rintro hnm ⟨col, hmem, hkv⟩
    have hc : ¬ (cols.contains c = true) := fun h => hnm (List.elem_iff.mp h)
    have hfound : (cols.any fun col => c.key == col.key || c.value == col.value) = true :=
      List.any_eq_true.mpr ⟨col, hmem, by rcases hkv with h | h <;> simp [h]⟩
    unfold upsertMappingCol
    rw [if_neg hc, if_pos hfound]
  · intro hno
    have hnm : c ∉ cols := fun h => (hno c h).1 rfl
    have hc : ¬ (cols.contains c = true) := fun h => hnm (List.elem_iff.mp h)
    have hfound : ¬ ((cols.any fun col => c.key == col.key || c.value == col.value) = true) := by
      intro h
      obtain ⟨col, hmem, hcc⟩ := List.any_eq_true.mp h
      have hor : c.key = col.key ∨ c.value = col.value := by simpa using hcc
      rcases hor with h' | h'
      · exact (hno col hmem).1 h'
      · exact (hno col hmem).2 h'
    unfold upsertMappingCol
    rw [if_neg hc, if_neg hfound]
  · intro hlen col hmem
    by_cases hc : cols.contains c = true
    · exfalso
      unfold upsertMappingCol at hlen
      rw [if_pos hc] at hlen
      exact lt_irrefl _ hlen
    by_cases hfound : (cols.any fun col => c.key == col.key || c.value == col.value) = true
    · exfalso
      unfold upsertMappingCol at hlen
      rw [if_neg hc, if_pos hfound] at hlen
      simp at hlen
    · have hnp := List.any_eq_false.mp (Bool.eq_false_iff.mpr hfound) col hmem
      constructor
      · intro h; exact hnp (by simp [h])
      · intro h; exact hnp (by simp [h])

/-- Witness for claim C6 at a concrete input: an entry matching by key only is
overwritten in place with the new key and value. -/
theorem claim_C6_witness :
    (⟨"[A]", "[T].[V2]"⟩ : MappingCol) ∉ [(⟨"[A]", "[T].[V1]"⟩ : MappingCol)] ∧
    upsertMappingCol [⟨"[A]", "[T].[V1]"⟩] ⟨"[A]", "[T].[V2]"⟩ = [⟨"[A]", "[T].[V2]"⟩] := by
  refine ⟨by decide, ?_⟩
  have h := (claim_C6_mapping_upsert [⟨"[A]", "[T].[V1]"⟩] ⟨"[A]", "[T].[V2]"⟩).2.1
    (by decide) ⟨⟨"[A]", "[T].[V1]"⟩, by decide, by decide⟩
  exact h.trans (by decide)

/-! ## The planning pass (tableau_datasource_update.py, TableauDatasourceTasks)

The configuration classes of
dags/tableau_datasource_update/configs/configuration.py are not part of the
provided sources; CFGColumn, CFGFolder and CFGDatasource are modelled from the
spec (desired columns with the same attribute shape as Column plus remote-name
and folder-name, desired folders, per-datasource identity).  The per-column
metadata payload column.metadata is modelled as an optional remote type. -/

/-- Modelled from the spec: a desired folder. -/
structure CFGFolder where
  name : String
  deriving DecidableEq

/-- Modelled from the spec: a desired column, the Column attribute shape plus
folder name, remote name and the metadata payload. -/
structure CFGColumn where
  name : String
  caption : String
  datatype : String
  role : String
  role_type : String
  calculation : Option String
  folder_name : Option String
  remote_name : Option String
  remote_type : Option String
  deriving DecidableEq

/-- Modelled from the spec: a desired datasource. -/
structure CFGDatasource where
  name : String
  columns : List CFGColumn
  folders : List CFGFolder
  deriving DecidableEq

/-- The expected connection attribute set built by
TableauDatasourceTasks.__set_connection_attributes (lines 96-108). -/
structure ExpectedConnAttrs where
  class_name : String
  dbname : String
  schema : String
  server : String
  service : String
  username : String
  warehouse : String
  deriving DecidableEq

/-- One variant (primary-connection or extract-connection) of an add_metadata
task (lines 181-195). -/
structure MetaVariant where
  parent_name : String
  ordinal : Nat
  family : Option String
  remote_type : Option String
  deriving DecidableEq

/-- An add_metadata task carrying the primary and the extract variant. -/
structure AddMetadataTask where
  conn : MetaVariant
  extract : MetaVariant
  deriving DecidableEq

/-- The six per-datasource task lists of UPDATE_ACTIONS (lines 20-27). -/
structure TaskLists where
  add_metadata : List AddMetadataTask
  add_column : List CFGColumn
  modify_column : List CFGColumn
  add_folder : List String
  delete_folder : List String
  update_connection : List ExpectedConnAttrs
  deriving DecidableEq

/-- The empty task lists set up per datasource (line 309). -/
def emptyTaskLists : TaskLists := ⟨[], [], [], [], [], []⟩

/-- TableauDatasourceTasks.__get_column_diffs (lines 142-167): the names of the
attributes whose values differ between the live column and the config column,
after dropping folder_name and remote_name from the config attribute set. -/
def getColumnDiffs (tds_col : Option Column) (c : CFGColumn) : List String :=
  match tds_col with
  | none => []
  | some col =>
    (if col.name ≠ c.name then ["name"] else []) ++
    (if col.caption ≠ c.caption then ["caption"] else []) ++
    (if col.datatype ≠ c.datatype then ["datatype"] else []) ++
    (if col.role ≠ c.role then ["role"] else []) ++
    (if col.role_type ≠ c.role_type then ["role_type"] else []) ++
    (if col.calculation ≠ c.calculation then ["calculation"] else [])

/-- The add_metadata task built by __compare_column_metadata when the metadata
record is missing (lines 181-195): each ordinal is the connection's record
count plus the number of add_metadata tasks already queued. -/
def mkAddMetadataTask (tds : Datasource) (ext : Extract) (queued : Nat)
    (c : CFGColumn) : AddMetadataTask :=
  ⟨⟨"[" ++ tds.connection.relation.name ++ "]",
    tds.connection.metadata_records.length + queued, none, c.remote_type⟩,
   ⟨"[" ++ ext.connection.relation.name ++ "]",
    ext.connection.metadata_records.length + queued,
    some tds.connection.relation.name, c.remote_type⟩⟩

/-- TableauDatasourceTasks.__compare_column_metadata (lines 169-198).  Returns
the metadata-update-needed flag and the add_metadata task to queue, if any;
none models the Python attribute error raised when the extract connection is
accessed while the datasource has no extract. -/
def compareColumnMetadata (tds : Datasource) (queued : Nat) (c : CFGColumn) :
    Option (Bool × Option AddMetadataTask) :=
  match c.remote_name with
  | none => some (false, none)
  | some r =>
    if r == "" then some (false, none)
    else
      match tfoGet MetadataRecord.remote_name tds.connection.metadata_records r with
      | some m =>
        if m.local_name != c.name then some (true, none) else some (false, none)
      | none =>
        match tds.extract with
        | none => none
        | some ext => some (false, some (mkAddMetadataTask tds ext queued c))

/-- TableauDatasourceTasks.__compare_column_mapping (lines 213-233): true when
the column still needs a mapping-table entry. -/
def compareColumnMapping (tds : Datasource) (c : CFGColumn) : Bool :=
  match c.remote_name with
  | none => false
  | some r =>
    match (if r == "" then none
           else tfoGet MetadataRecord.remote_name tds.connection.metadata_records r) with
    | none => false
    | some m =>
      let mapping_not_required := tds.connection.cols.isEmpty && (pySlice1m1 c.name == r)
      !(mapping_not_required ||
        tds.connection.cols.contains ⟨c.name, m.parent_name ++ ".[" ++ r ++ "]"⟩)

/-- The seven expected connection attributes iterated by __compare_connection
(line 254), as accessor pairs into the live sub-connection and the expected
attribute set. -/
def connAttrPairs : List ((SubConnection → String) × (ExpectedConnAttrs → String)) :=
  [(SubConnection.class_name, ExpectedConnAttrs.class_name),
   (SubConnection.dbname, ExpectedConnAttrs.dbname),
   (SubConnection.schema, ExpectedConnAttrs.schema),
   (SubConnection.server, ExpectedConnAttrs.server),
   (SubConnection.service, ExpectedConnAttrs.service),
   (SubConnection.username, ExpectedConnAttrs.username),
   (SubConnection.warehouse, ExpectedConnAttrs.warehouse)]

/-- TableauDatasourceTasks.__compare_connection (lines 235-262).  Returns the
update_connection task when a difference is found; the outer none models the
Python error raised when the named connection or the sub-connection for the
expected class is missing. -/
def compareConnection (tds_connection : ParentConnection) (expected : ExpectedConnAttrs) :
    Option (Option ExpectedConnAttrs) :=
  match tfoGet NamedConnection.name tds_connection.named_connections expected.class_name with
  | none => none
  | some named_conn =>
    match tfoGet SubConnection.class_name tds_connection.connections expected.class_name with
    | none => none
    | some tds_conn =>
      let connection_diff :=
        (expected.server != named_conn.caption) ||
        connAttrPairs.any (fun p =>
          (p.1 tds_conn != "") && (pyLower (p.1 tds_conn) != pyLower (p.2 expected)))
      if connection_diff then some (some expected) else some none

/-- TableauDatasourceTasks.__compare_folders (lines 264-280): live folders
absent from the config are deleted, config folders absent live are added. -/
def compareFolders (tds_folders : List Folder) (cfg_folders : List CFGFolder) :
    List String × List String :=
  (tds_folders.filterMap (fun tf =>
      if (tfoGet CFGFolder.name cfg_folders tf.name).isNone then some tf.name else none),
   cfg_folders.filterMap (fun cf =>
      if (tfoGet Folder.name tds_folders cf.name).isNone then some cf.name else none))

/-- The per-column body of the planning loop (lines 326-351). -/
def processColumn (tds : Datasource) (tl : TaskLists) (c : CFGColumn) : Option TaskLists :=
  match compareColumnMetadata tds tl.add_metadata.length c with
  | none => none
  | some (metadata_update_needed, newTask) =>
    let tl := match newTask with
      | some t => { tl with add_metadata := tl.add_metadata ++ [t] }
      | none => tl
    let column_needs_mapping := compareColumnMapping tds c
    let tds_column := tfoGet Column.name tds.columns c.name
    let column_diffs := getColumnDiffs tds_column c
    let tds_folder := match c.folder_name with
      | some fn => tfoGet Folder.name tds.folders_common.folder fn
      | none => none
    let not_in_folder := match tds_folder with
      | none => true
      | some fo => (tfoGet FolderItem.name fo.folder_item c.name).isNone
    match tds_column with
    | none => some { tl with add_column := tl.add_column ++ [c] }
    | some _ =>
      if !column_diffs.isEmpty || not_in_folder || metadata_update_needed ||
          column_needs_mapping then
        some { tl with modify_column := tl.modify_column ++ [c] }
      else some tl

/-- The per-datasource planning body of TableauDatasourceTasks.execute
(lines 309-351): task lists start empty, the connection, the folders and then
each config column are compared.  The metadata audit of __compare_tds_metadata
only logs and is omitted. -/
def executeDS (expected : ExpectedConnAttrs) (tds : Datasource) (cfgds : CFGDatasource) :
    Option TaskLists :=
  match compareConnection tds.connection expected with
  | none => none
  | some connTask =>
    let tl : TaskLists := emptyTaskLists
    let tl := match connTask with
      | some a => { tl with update_connection := tl.update_connection ++ [a] }
      | none => tl
    let fd := compareFolders tds.folders_common.folder cfgds.folders
    let tl := { tl with delete_folder := fd.1, add_folder := fd.2 }
    cfgds.columns.foldlM (processColumn tds) tl

/-! ## Claim C2: planning is idempotent on a converged document -/

/-- A config column is converged on the live document: the live column exists
with equal attributes, it sits in its declared folder, and when it has a
non-empty remote name the metadata record carries its name and the mapping
entry is in place (or no mapping table is in use and the name matches). -/
def columnConverged (tds : Datasource) (c : CFGColumn) : Prop :=
  tfoGet Column.name tds.columns c.name =
    some ⟨c.name, c.caption, c.datatype, c.role, c.role_type, c.calculation⟩ ∧
  (∃ fn fo, c.folder_name = some fn ∧
    tfoGet Folder.name tds.folders_common.folder fn = some fo ∧
    (tfoGet FolderItem.name fo.folder_item c.name).isSome = true) ∧
  (∀ r, c.remote_name = some r → r ≠ "" →
    ∃ m, tfoGet MetadataRecord.remote_name tds.connection.metadata_records r = some m ∧
      m.local_name = c.name ∧
      (tds.connection.cols.contains
        (⟨c.name, m.parent_name ++ ".[" ++ r ++ "]"⟩ : MappingCol) = true ∨
       (tds.connection.cols = [] ∧ pySlice1m1 c.name = r)))

theorem processColumn_converged (tds : Datasource) (tl : TaskLists) (c : CFGColumn)
    (hc : columnConverged tds c) : processColumn tds tl c = some tl := by
  obtain ⟨hcol, ⟨fn, fo, hfn, hfo, hitem⟩, hmeta⟩ := hc
  have hcm : compareColumnMetadata tds tl.add_metadata.length c = some (false, none) := by
    unfold compareColumnMetadata
    cases hr : c.remote_name with
    | none => rfl
    | some r =>
      dsimp only
      by_cases hre : (r == "") = true
      · rw [if_pos hre]
      · rw [if_neg hre]
        obtain ⟨m, hm, hml, _⟩ := hmeta r hr (fun h => hre (beq_iff_eq.mpr h))
        rw [hm]
        dsimp only
        have hbne : (m.local_name != c.name) = false := by simp [hml]
        rw [hbne]
        rfl
  have hmap : compareColumnMapping tds c = false := by
    unfold compareColumnMapping
    cases hr : c.remote_name with
    | none => rfl
    | some r =>
      dsimp only
      by_cases hre : (r == "") = true
      · rw [if_pos hre]
      · rw [if_neg hre]
        obtain ⟨m, hm, hml, hpair⟩ := hmeta r hr (fun h => hre (beq_iff_eq.mpr h))
        rw [hm]
        dsimp only
        rcases hpair with hcont | ⟨hnil, hsl⟩
        · have hmem := List.elem_iff.mp hcont
          simp [hmem]
        · simp [hnil, hsl]
  have hdiffs : getColumnDiffs
      (some ⟨c.name, c.caption, c.datatype, c.role, c.role_type, c.calculation⟩) c = [] := by
    simp [getColumnDiffs]
  obtain ⟨it, hit⟩ := Option.isSome_iff_exists.mp hitem
  unfold processColumn
  rw [hcm]
  dsimp only
  rw [hcol]
  dsimp only
  rw [hfn]
  dsimp only
  rw [hfo]
  dsimp only
  rw [hdiffs, hmap, hit]
  rfl

theorem foldl_processColumn_converged (tds : Datasource) :
    ∀ (cols : List CFGColumn) (tl : TaskLists),
      (∀ c ∈ cols, columnConverged tds c) →
      List.foldlM (processColumn tds) tl cols = some tl := by
  intro cols
  induction cols with
  | nil => intro tl _; rfl
  | cons c cs ih =>
    intro tl hall
    rw [List.foldlM_cons, processColumn_converged tds tl c (hall c (List.mem_cons_self c cs))]
    exact ih tl (fun x hx => hall x (List.mem_cons_of_mem c hx))

/-- Claim C2: on a document already converged to the config datasource, the
planning pass produces a task set in which all six task lists are empty. -/
theorem claim_C2_plan_idempotent (expected : ExpectedConnAttrs) (tds : Datasource)
    (cfgds : CFGDatasource) (nc : NamedConnection) (sc : SubConnection)
    (hnc : tfoGet NamedConnection.name tds.connection.named_connections
      expected.class_name = some nc)
    (hcap : nc.caption = expected.server)
    (hsc : tfoGet SubConnection.class_name tds.connection.connections
      expected.class_name = some sc)
    (hattrs : ∀ p ∈ connAttrPairs, p.1 sc = "" ∨ pyLower (p.1 sc) = pyLower (p.2 expected))
    (hfol₁ : ∀ tf ∈ tds.folders_common.folder,
      (tfoGet CFGFolder.name cfgds.folders tf.name).isSome = true)
    (hfol₂ : ∀ cf ∈ cfgds.folders,
      (tfoGet Folder.name tds.folders_common.folder cf.name).isSome = true)
    (hcols : ∀ c ∈ cfgds.columns, columnConverged tds c) :
    executeDS expected tds cfgds = some emptyTaskLists := by
  have hconn : compareConnection tds.connection expected = some none := by
    unfold compareConnection
    rw [hnc, hsc]
    dsimp only
    have h1 : (expected.server != nc.caption) = false := by simp [hcap]
    have h2 : connAttrPairs.any (fun p =>
        (p.1 sc != "") && (pyLower (p.1 sc) != pyLower (p.2 expected))) = false := by
      rw [List.any_eq_false]
      intro p hp
      rcases hattrs p hp with h | h
      · simp [h]
      · simp [h]
    rw [h1, h2]
    simp
  have hdel : tds.folders_common.folder.filterMap (fun tf =>
      if (tfoGet CFGFolder.name cfgds.folders tf.name).isNone then some tf.name
      else none) = [] := by
    rw [List.filterMap_eq_nil_iff]
    intro tf htf
    obtain ⟨x, hx⟩ := Option.isSome_iff_exists.mp (hfol₁ tf htf)
    simp [hx]
  have hadd : cfgds.folders.filterMap (fun cf =>
      if (tfoGet Folder.name tds.folders_common.folder cf.name).isNone then some cf.name
      else none) = [] := by
    rw [List.filterMap_eq_nil_iff]
    intro cf hcf
    obtain ⟨x, hx⟩ := Option.isSome_iff_exists.mp (hfol₂ cf hcf)
    simp [hx]
  unfold executeDS
  rw [hconn]
  dsimp only
  unfold compareFolders
  rw [hdel, hadd]
  exact foldl_processColumn_converged tds cfgds.columns _ hcols

/-- Witness for claim C2 at a concrete converged datasource. -/
theorem claim_C2_witness :
    executeDS ⟨"snowflake", "D", "S", "SRV", "ROLE", "U", "W"⟩
      ⟨⟨[⟨"snowflake", "SRV"⟩], [⟨"snowflake", "d", "s", "srv", "role", "u", "w"⟩],
        ⟨"[T]"⟩, [⟨"R", "[A]", "[T]", 0, none⟩], [⟨"[A]", "[T].[R]"⟩]⟩,
        [⟨"[A]", "A", "string", "dimension", "ordinal", none⟩],
        ⟨[⟨"F", [⟨"[A]"⟩]⟩]⟩, none, ⟨false⟩⟩
      ⟨"DS1", [⟨"[A]", "A", "string", "dimension", "ordinal", none,
        some "F", some "R", none⟩], [⟨"F"⟩]⟩ = some emptyTaskLists := by
  refine claim_C2_plan_idempotent _ _ _ ⟨"snowflake", "SRV"⟩
    ⟨"snowflake", "d", "s", "srv", "role", "u", "w"⟩ ?_ ?_ ?_ ?_ ?_ ?_ ?_
  · rfl
  · rfl
  · rfl
  · intro p hp
    fin_cases hp <;> right <;> decide
  · intro tf htf
    fin_cases htf
    decide
  · intro cf hcf
    fin_cases hcf
    decide
  · intro c hc
    fin_cases hc
    refine ⟨rfl, ⟨"F", ⟨"F", [⟨"[A]"⟩]⟩, rfl, by decide, by decide⟩, ?_⟩
    intro r hr hne
    cases hr
    exact ⟨⟨"R", "[A]", "[T]", 0, none⟩, by decide, rfl, Or.inl (by decide)⟩

/-! ## Claim C7: add_metadata tasks and ordinal assignment -/

/-- The path condition of __compare_column_metadata under which an
add_metadata task is queued: a non-empty remote name with no live metadata
record. -/
def missingPred (tds : Datasource) (c : CFGColumn) : Bool :=
  match c.remote_name with
  | some r => !(r == "") &&
      (tfoGet MetadataRecord.remote_name tds.connection.metadata_records r).isNone
  | none => false

/-- The add_metadata tasks one planning pass queues for a column list, with q
tasks already queued: one task per missing column, ordinals assigned as record
count plus queue position. -/
def expectedMetaTasks (tds : Datasource) (ext : Extract) :
    Nat → List CFGColumn → List AddMetadataTask
  | _, [] => []
  | q, c :: cols =>
    if missingPred tds c then
      mkAddMetadataTask tds ext q c :: expectedMetaTasks tds ext (q + 1) cols
    else expectedMetaTasks tds ext q cols

theorem exists_of_ite_some {β : Type} (b : Bool) (x y : β) (P : β → Prop)
    (hx : P x) (hy : P y) : ∃ z, (if b then some x else some y) = some z ∧ P z := by
  cases b
  · exact ⟨y, rfl, hy⟩
  · exact ⟨x, rfl, hx⟩

theorem compareColumnMetadata_eq (tds : Datasource) (ext : Extract)
    (hx : tds.extract = some ext) (q : Nat) (c : CFGColumn) :
    ∃ b, compareColumnMetadata tds q c = some
      (b, if missingPred tds c then some (mkAddMetadataTask tds ext q c) else none) := by
  unfold compareColumnMetadata missingPred
  cases hr : c.remote_name with
  | none => exact ⟨false, rfl⟩
  | some r =>
    dsimp only
    by_cases hre : (r == "") = true
    · rw [if_pos hre]
      refine ⟨false, ?_⟩
      rw [if_neg (by simp [hre])]
    · rw [if_neg hre]
      cases hm : tfoGet MetadataRecord.remote_name tds.connection.metadata_records r with
      | some m =>
        dsimp only
        refine ⟨m.local_name != c.name, ?_⟩
        have hnone : (if (!(r == "") && ((some m : Option MetadataRecord)).isNone) = true
            then some (mkAddMetadataTask tds ext q c) else none) = none := by simp
        rw [hnone]
        by_cases hb : (m.local_name != c.name) = true
        · rw [if_pos hb, hb]
        · rw [if_neg hb, Bool.eq_false_iff.mpr hb]
      | none =>
        rw [hx]
        dsimp only
        refine ⟨false, ?_⟩
        rw [if_pos (by simp [Bool.eq_false_iff.mpr hre])]

theorem processColumn_meta_step (tds : Datasource) (ext : Extract)
    (hx : tds.extract = some ext) (tl : TaskLists) (c : CFGColumn) :
    ∃ tl', processColumn tds tl c = some tl' ∧
      tl'.add_metadata = tl.add_metadata ++
        (if missingPred tds c then [mkAddMetadataTask tds ext tl.add_metadata.length c]
         else []) := by
  obtain ⟨b, hcm⟩ := compareColumnMetadata_eq tds ext hx tl.add_metadata.length c
  unfold processColumn
  rw [hcm]
  dsimp only
  by_cases hmiss : missingPred tds c = true
  · rw [if_pos hmiss, if_pos hmiss]
    dsimp only
    cases htc : tfoGet Column.name tds.columns c.name with
    | none => exact ⟨_, rfl, rfl⟩
    | some col =>
      dsimp only
      exact exists_of_ite_some _ _ _
        (fun (z : TaskLists) => z.add_metadata = tl.add_metadata ++
          [mkAddMetadataTask tds ext tl.add_metadata.length c]) rfl rfl
  · rw [if_neg hmiss, if_neg hmiss]
    dsimp only
    cases htc : tfoGet Column.name tds.columns c.name with
    | none => exact ⟨_, rfl, by simp⟩
    | some col =>
      dsimp only
      exact exists_of_ite_some _ _ _
        (fun (z : TaskLists) => z.add_metadata = tl.add_metadata ++ []) (by simp) (by simp)

theorem foldl_processColumn_meta (tds : Datasource) (ext : Extract)
    (hx : tds.extract = some ext) :
    ∀ (cols : List CFGColumn) (tl : TaskLists),
      ∃ tl', List.foldlM (processColumn tds) tl cols = some tl' ∧
        tl'.add_metadata = tl.add_metadata ++
          expectedMetaTasks tds ext tl.add_metadata.length cols := by
  intro cols
  induction cols with
  | nil => intro tl; exact ⟨tl, rfl, by simp [expectedMetaTasks]⟩
  | cons c cs ih =>
    intro tl
    obtain ⟨tl₁, hstep, hm₁⟩ := processColumn_meta_step tds ext hx tl c
    obtain ⟨tl', hfold, hm'⟩ := ih tl₁
    refine ⟨tl', ?_, ?_⟩
    · rw [List.foldlM_cons, hstep]
      exact hfold
    · rw [hm', hm₁]
      by_cases hmiss : missingPred tds c = true
      · rw [if_pos hmiss] at hm₁ ⊢
        simp [expectedMetaTasks, hmiss, List.append_assoc]
      · rw [if_neg hmiss] at hm₁ ⊢
        simp [expectedMetaTasks, hmiss]

theorem expectedMetaTasks_length (tds : Datasource) (ext : Extract) :
    ∀ (cols : List CFGColumn) (q : Nat),
      (expectedMetaTasks tds ext q cols).length = (cols.filter (missingPred tds)).length := by
  intro cols
  induction cols with
  | nil => intro q; rfl
  | cons c cs ih =>
    intro q
    by_cases hmiss : missingPred tds c = true
    · simp [expectedMetaTasks, hmiss, List.filter_cons, ih]
    · simp [expectedMetaTasks, Bool.eq_false_iff.mpr hmiss, List.filter_cons, ih]

theorem expectedMetaTasks_lb (tds : Datasource) (ext : Extract) :
    ∀ (cols : List CFGColumn) (q : Nat) (t : AddMetadataTask),
      t ∈ expectedMetaTasks tds ext q cols →
      tds.connection.metadata_records.length + q ≤ t.conn.ordinal ∧
      ext.connection.metadata_records.length + q ≤ t.extract.ordinal := by
  intro cols
  induction cols with
  | nil => intro q t ht; cases ht
  | cons c cs ih =>
    intro q t ht
    by_cases hmiss : missingPred tds c = true
    · rw [expectedMetaTasks, if_pos hmiss] at ht
      rcases List.mem_cons.mp ht with h | h
      · subst h
        exact ⟨Nat.le_refl _, Nat.le_refl _⟩
      · have := ih (q + 1) t h
        omega
    · rw [expectedMetaTasks, if_neg hmiss] at ht
      exact ih q t ht

theorem expectedMetaTasks_pairwise (tds : Datasource) (ext : Extract) :
    ∀ (cols : List CFGColumn) (q : Nat),
      List.Pairwise (· < ·) ((expectedMetaTasks tds ext q cols).map (fun t => t.conn.ordinal)) ∧
      List.Pairwise (· < ·)
        ((expectedMetaTasks tds ext q cols).map (fun t => t.extract.ordinal)) := by
  intro cols
  induction cols with
  | nil => intro q; constructor <;> simp [expectedMetaTasks]
  | cons c cs ih =>
    intro q
    by_cases hmiss : missingPred tds c = true
    · rw [expectedMetaTasks, if_pos hmiss]
      constructor
      · rw [List.map_cons, List.pairwise_cons]
        refine ⟨?_, (ih (q + 1)).1⟩
        intro b hb
        obtain ⟨t, ht, hbt⟩ := List.mem_map.mp hb
        have := (expectedMetaTasks_lb tds ext cs (q + 1) t ht).1
        subst hbt
        simp only [mkAddMetadataTask]
        omega
      · rw [List.map_cons, List.pairwise_cons]
        refine ⟨?_, (ih (q + 1)).2⟩
        intro b hb
        obtain ⟨t, ht, hbt⟩ := List.mem_map.mp hb
        have := (expectedMetaTasks_lb tds ext cs (q + 1) t ht).2
        subst hbt
        simp only [mkAddMetadataTask]
        omega
    · rw [expectedMetaTasks, if_neg hmiss]
      exact ih q

/-- Claim C7: one planning pass queues exactly one add_metadata task per
desired column whose non-empty remote name has no live metadata record, each
task carrying a primary and an extract variant whose ordinals are the
connection's record count plus the number of tasks already queued, so the
ordinal sequences are strictly increasing and collision-free. -/
theorem claim_C7_add_metadata_ordinals (expected : ExpectedConnAttrs) (tds : Datasource)
    (cfgds : CFGDatasource) (ext : Extract) (nc : NamedConnection) (sc : SubConnection)
    (hx : tds.extract = some ext)
    (hnc : tfoGet NamedConnection.name tds.connection.named_connections
      expected.class_name = some nc)
    (hsc : tfoGet SubConnection.class_name tds.connection.connections
      expected.class_name = some sc) :
    ∃ tl, executeDS expected tds cfgds = some tl ∧
      tl.add_metadata = expectedMetaTasks tds ext 0 cfgds.columns ∧
      tl.add_metadata.length = (cfgds.columns.filter (missingPred tds)).length ∧
      List.Pairwise (· < ·) (tl.add_metadata.map (fun t => t.conn.ordinal)) ∧
      List.Pairwise (· < ·) (tl.add_metadata.map (fun t => t.extract.ordinal)) := by
  have hmain : ∀ tl : TaskLists, tl.add_metadata = [] →
      ∃ tl', cfgds.columns.foldlM (processColumn tds) tl = some tl' ∧
        tl'.add_metadata = expectedMetaTasks tds ext 0 cfgds.columns := by
    intro tl htl
    obtain ⟨tl', hf, hm⟩ := foldl_processColumn_meta tds ext hx cfgds.columns tl
    rw [htl] at hm
    exact ⟨tl', hf, by simpa using hm⟩
  have hconn : ∃ ct, compareConnection tds.connection expected = some ct := by
    unfold compareConnection
    rw [hnc, hsc]
    dsimp only
    by_cases hd : ((expected.server != nc.caption) ||
        connAttrPairs.any (fun p =>
          (p.1 sc != "") && (pyLower (p.1 sc) != pyLower (p.2 expected)))) = true
    · exact ⟨some expected, by rw [if_pos hd]⟩
    · exact ⟨none, by rw [if_neg hd]⟩
  obtain ⟨ct, hct⟩ := hconn
  unfold executeDS
  rw [hct]
  dsimp only
  have hfin : ∀ tl' : TaskLists, tl'.add_metadata = expectedMetaTasks tds ext 0 cfgds.columns →
      tl'.add_metadata = expectedMetaTasks tds ext 0 cfgds.columns ∧
      tl'.add_metadata.length = (cfgds.columns.filter (missingPred tds)).length ∧
      List.Pairwise (· < ·) (tl'.add_metadata.map (fun t => t.conn.ordinal)) ∧
      List.Pairwise (· < ·) (tl'.add_metadata.map (fun t => t.extract.ordinal)) := by
    intro tl' hm
    refine ⟨hm, ?_, ?_, ?_⟩
    · rw [hm, expectedMetaTasks_length]
    · rw [hm]; exact (expectedMetaTasks_pairwise tds ext cfgds.columns 0).1
    · rw [hm]; exact (expectedMetaTasks_pairwise tds ext cfgds.columns 0).2
  cases ct with
  | some a =>
    dsimp only
    obtain ⟨tl', hf, hm⟩ := hmain ⟨[], [], [],
      (compareFolders tds.folders_common.folder cfgds.folders).2,
      (compareFolders tds.folders_common.folder cfgds.folders).1, [a]⟩ rfl
    exact ⟨tl', hf, hfin tl' hm⟩
  | none =>
    dsimp only
    obtain ⟨tl', hf, hm⟩ := hmain ⟨[], [], [],
      (compareFolders tds.folders_common.folder cfgds.folders).2,
      (compareFolders tds.folders_common.folder cfgds.folders).1, []⟩ rfl
    exact ⟨tl', hf, hfin tl' hm⟩

/-- Witness for claim C7: two desired columns with unknown remote names R1 and
R2 on a datasource with no metadata records and an extract mirror. -/
theorem claim_C7_witness :
    ∃ tl, executeDS ⟨"snowflake", "D", "S", "SRV", "ROLE", "U", "W"⟩
      ⟨⟨[⟨"snowflake", "SRV"⟩], [⟨"snowflake", "d", "s", "srv", "role", "u", "w"⟩],
        ⟨"T"⟩, [], []⟩, [], ⟨[]⟩, some ⟨⟨[], [], ⟨"TE"⟩, [], []⟩⟩, ⟨false⟩⟩
      ⟨"DS", [⟨"[A]", "A", "string", "dimension", "ordinal", none, none, some "R1", none⟩,
              ⟨"[B]", "B", "string", "dimension", "ordinal", none, none, some "R2", none⟩],
        []⟩ = some tl ∧
      tl.add_metadata = expectedMetaTasks
        ⟨⟨[⟨"snowflake", "SRV"⟩], [⟨"snowflake", "d", "s", "srv", "role", "u", "w"⟩],
          ⟨"T"⟩, [], []⟩, [], ⟨[]⟩, some ⟨⟨[], [], ⟨"TE"⟩, [], []⟩⟩, ⟨false⟩⟩
        ⟨⟨[], [], ⟨"TE"⟩, [], []⟩⟩ 0
        [⟨"[A]", "A", "string", "dimension", "ordinal", none, none, some "R1", none⟩,
         ⟨"[B]", "B", "string", "dimension", "ordinal", none, none, some "R2", none⟩] ∧
      tl.add_metadata.length =
        ([⟨"[A]", "A", "string", "dimension", "ordinal", none, none, some "R1", none⟩,
          ⟨"[B]", "B", "string", "dimension", "ordinal", none, none, some "R2", none⟩].filter
          (missingPred ⟨⟨[⟨"snowflake", "SRV"⟩],
            [⟨"snowflake", "d", "s", "srv", "role", "u", "w"⟩],
            ⟨"T"⟩, [], []⟩, [], ⟨[]⟩, some ⟨⟨[], [], ⟨"TE"⟩, [], []⟩⟩, ⟨false⟩⟩)).length ∧
      List.Pairwise (· < ·) (tl.add_metadata.map (fun t => t.conn.ordinal)) ∧
      List.Pairwise (· < ·) (tl.add_metadata.map (fun t => t.extract.ordinal)) :=
  claim_C7_add_metadata_ordinals ⟨"snowflake", "D", "S", "SRV", "ROLE", "U", "W"⟩
    ⟨⟨[⟨"snowflake", "SRV"⟩], [⟨"snowflake", "d", "s", "srv", "role", "u", "w"⟩],
      ⟨"T"⟩, [], []⟩, [], ⟨[]⟩, some ⟨⟨[], [], ⟨"TE"⟩, [], []⟩⟩, ⟨false⟩⟩
    ⟨"DS", [⟨"[A]", "A", "string", "dimension", "ordinal", none, none, some "R1", none⟩,
            ⟨"[B]", "B", "string", "dimension", "ordinal", none, none, some "R2", none⟩],
      []⟩
    ⟨⟨[], [], ⟨"TE"⟩, [], []⟩⟩ ⟨"snowflake", "SRV"⟩
    ⟨"snowflake", "d", "s", "srv", "role", "u", "w"⟩ rfl rfl rfl

/-! ## Claim C8: when an update_connection task is emitted -/

/-- The connection difference as the claim states it: the expected server
differs from the live caption, or some expected attribute differs
case-insensitively from the live value.  Written from the claim for
comparison against the code, which additionally skips empty live values. -/
def claimedConnDiff (sc : SubConnection) (nc : NamedConnection)
    (expected : ExpectedConnAttrs) : Prop :=
  expected.server ≠ nc.caption ∨
    ∃ p ∈ connAttrPairs, pyLower (p.1 sc) ≠ pyLower (p.2 expected)

/-- Counterexample to claim C8: the live connection has an empty dbname while
the expected dbname is D, every other attribute matches, and the server
matches the caption.  The claimed condition holds (D differs from the empty
string case-insensitively) yet the code emits no update_connection task,
because it skips attributes whose live value is empty. -/
theorem claim_C8_counterexample :
    compareConnection
      ⟨[⟨"snowflake", "SRV"⟩], [⟨"snowflake", "", "s", "srv", "role", "u", "w"⟩],
        ⟨"[T]"⟩, [], []⟩
      ⟨"snowflake", "D", "S", "SRV", "ROLE", "U", "W"⟩ = some none ∧
    claimedConnDiff ⟨"snowflake", "", "s", "srv", "role", "u", "w"⟩ ⟨"snowflake", "SRV"⟩
      ⟨"snowflake", "D", "S", "SRV", "ROLE", "U", "W"⟩ := by
  constructor
  · rfl
  · right
    refine ⟨(SubConnection.dbname, ExpectedConnAttrs.dbname), ?_, by decide⟩
    unfold connAttrPairs
    exact List.mem_cons_of_mem _ (List.mem_cons_self _ _)

/-- Claim C8 as amended: an update_connection task carrying the full expected
attribute set is emitted if and only if the expected server differs from the
live named sub-connection caption, or some expected attribute value differs
case-insensitively from a non-empty live value for that attribute. -/
theorem claim_C8_update_connection_iff (pc : ParentConnection) (e : ExpectedConnAttrs)
    (nc : NamedConnection) (sc : SubConnection)
    (hnc : tfoGet NamedConnection.name pc.named_connections e.class_name = some nc)
    (hsc : tfoGet SubConnection.class_name pc.connections e.class_name = some sc) :
    ∃ t, compareConnection pc e = some t ∧
      (t = some e ↔ (e.server ≠ nc.caption ∨
        ∃ p ∈ connAttrPairs, p.1 sc ≠ "" ∧ pyLower (p.1 sc) ≠ pyLower (p.2 e))) ∧
      (t = none ∨ t = some e) := by
  unfold compareConnection
  rw [hnc, hsc]
  dsimp only
  by_cases hd : ((e.server != nc.caption) ||
      connAttrPairs.any (fun p =>
        (p.1 sc != "") && (pyLower (p.1 sc) != pyLower (p.2 e)))) = true
  · rw [if_pos hd]
    refine ⟨some e, rfl, ?_, Or.inr rfl⟩
    simp only [true_iff]
    rcases Bool.or_eq_true_iff.mp hd with h | h
    · exact Or.inl (bne_iff_ne.mp h)
    · obtain ⟨p, hp, hand⟩ := List.any_eq_true.mp h
      obtain ⟨h1, h2⟩ := Bool.and_eq_true_iff.mp hand
      exact Or.inr ⟨p, hp, bne_iff_ne.mp h1, bne_iff_ne.mp h2⟩
  · rw [if_neg hd]
    refine ⟨none, rfl, ?_, Or.inl rfl⟩
    constructor
    · intro h; cases h
    · intro h
      exfalso
      apply hd
      rcases h with h | ⟨p, hp, h1, h2⟩
      · exact Bool.or_eq_true_iff.mpr (Or.inl (bne_iff_ne.mpr h))
      · refine Bool.or_eq_true_iff.mpr (Or.inr (List.any_eq_true.mpr ⟨p, hp, ?_⟩))
        exact Bool.and_eq_true_iff.mpr ⟨bne_iff_ne.mpr h1, bne_iff_ne.mpr h2⟩

/-- Witness for the amended claim C8 at a concrete input with a genuine
case-insensitive difference on a non-empty live dbname. -/
theorem claim_C8_witness :
    ∃ t, compareConnection
      ⟨[⟨"snowflake", "SRV"⟩], [⟨"snowflake", "x", "s", "srv", "role", "u", "w"⟩],
        ⟨"[T]"⟩, [], []⟩
      ⟨"snowflake", "D", "S", "SRV", "ROLE", "U", "W"⟩ = some t ∧
      (t = some ⟨"snowflake", "D", "S", "SRV", "ROLE", "U", "W"⟩ ↔
        (ExpectedConnAttrs.server ⟨"snowflake", "D", "S", "SRV", "ROLE", "U", "W"⟩ ≠
          NamedConnection.caption ⟨"snowflake", "SRV"⟩ ∨
        ∃ p ∈ connAttrPairs,
          p.1 ⟨"snowflake", "x", "s", "srv", "role", "u", "w"⟩ ≠ "" ∧
          pyLower (p.1 ⟨"snowflake", "x", "s", "srv", "role", "u", "w"⟩) ≠
            pyLower (p.2 ⟨"snowflake", "D", "S", "SRV", "ROLE", "U", "W"⟩))) ∧
      (t = none ∨ t = some ⟨"snowflake", "D", "S", "SRV", "ROLE", "U", "W"⟩) :=
  claim_C8_update_connection_iff
    ⟨[⟨"snowflake", "SRV"⟩], [⟨"snowflake", "x", "s", "srv", "role", "u", "w"⟩],
      ⟨"[T]"⟩, [], []⟩
    ⟨"snowflake", "D", "S", "SRV", "ROLE", "U", "W"⟩
    ⟨"snowflake", "SRV"⟩ ⟨"snowflake", "x", "s", "srv", "role", "u", "w"⟩ rfl rfl

/-! ## Claim C9: the apply-phase coordinator (TableauDatasourceUpdate.execute)

The per-datasource download, update and publish calls are external I/O; they
are abstracted as a function from the datasource id to a result, and one entry
of the task dictionary carries the id, display name and task lists. -/

/-- One entry of the task dictionary handed to the apply phase. -/
structure DSEntry where
  dsid : String
  datasource_name : String
  tasks : TaskLists
  deriving DecidableEq

/-- TableauDatasourceUpdate.__has_tasks_to_do (lines 372-382): some task list
is non-empty.  The non-list dictionary values (name, project) are skipped by
the isinstance check and do not appear in the model. -/
def hasTasksToDo (tl : TaskLists) : Bool :=
  !tl.add_metadata.isEmpty || !tl.add_column.isEmpty || !tl.modify_column.isEmpty ||
  !tl.add_folder.isEmpty || !tl.delete_folder.isEmpty || !tl.update_connection.isEmpty

/-- The result of one coordinator run: datasources published, errors
collected, the argument of the compensating refresh call if one was issued,
and the contents of the aggregate error if one was raised. -/
structure UpdateRunResult where
  published : List String
  errors : List String
  refresh_arg : Option (List DSEntry)
  raised : Option (List String)
  deriving DecidableEq

/-- TableauDatasourceUpdate.execute (lines 416-467): every datasource is
attempted in order; excluded datasources and datasources with no tasks are
skipped; an error aborts only that datasource and is collected; afterwards, if
any errors were collected, refresh_datasources is called on the whole task
dictionary and an aggregate error carrying the collected errors is raised. -/
def updateExecute (excluded : List String) (applyDS : String → Except String Unit)
    (all_tasks : List DSEntry) : UpdateRunResult :=
  let step := fun (acc : List String × List String) (e : DSEntry) =>
    if e.datasource_name ∈ excluded then acc
    else if !(hasTasksToDo e.tasks) then acc
    else match applyDS e.dsid with
      | Except.ok _ => (acc.1 ++ [e.dsid], acc.2)
      | Except.error err => (acc.1, acc.2 ++ [err])
  let r := all_tasks.foldl step ([], [])
  if r.2.isEmpty then ⟨r.1, r.2, none, none⟩
  else ⟨r.1, r.2, some all_tasks, some r.2⟩

/-- The datasources the run publishes: the non-skipped entries whose apply
succeeds, in order. -/
def pubsOf (excluded : List String) (applyDS : String → Except String Unit)
    (entries : List DSEntry) : List String :=
  entries.filterMap (fun e =>
    if e.datasource_name ∈ excluded then none
    else if !(hasTasksToDo e.tasks) then none
    else match applyDS e.dsid with
      | Except.ok _ => some e.dsid
      | Except.error _ => none)

/-- The errors the run collects: one per non-skipped entry whose apply fails,
in order. -/
def errsOf (excluded : List String) (applyDS : String → Except String Unit)
    (entries : List DSEntry) : List String :=
  entries.filterMap (fun e =>
    if e.datasource_name ∈ excluded then none
    else if !(hasTasksToDo e.tasks) then none
    else match applyDS e.dsid with
      | Except.ok _ => none
      | Except.error err => some err)

theorem updateExecute_fold_char (excluded : List String)
    (applyDS : String → Except String Unit) :
    ∀ (entries : List DSEntry) (acc : List String × List String),
      entries.foldl (fun (acc : List String × List String) (e : DSEntry) =>
        if e.datasource_name ∈ excluded then acc
        else if !(hasTasksToDo e.tasks) then acc
        else match applyDS e.dsid with
          | Except.ok _ => (acc.1 ++ [e.dsid], acc.2)
          | Except.error err => (acc.1, acc.2 ++ [err])) acc =
      (acc.1 ++ pubsOf excluded applyDS entries, acc.2 ++ errsOf excluded applyDS entries) := by
  intro entries
  induction entries with
  | nil => intro acc; simp [pubsOf, errsOf]
  | cons e es ih =>
    intro acc
    rw [List.foldl_cons]
    by_cases h1 : e.datasource_name ∈ excluded
    · rw [if_pos h1, ih acc]
      simp [pubsOf, errsOf, List.filterMap_cons, h1]
    · rw [if_neg h1]
      by_cases h2 : (!(hasTasksToDo e.tasks)) = true
      · have h2f : hasTasksToDo e.tasks = false := by simpa using h2
        rw [if_pos h2, ih acc]
        simp [pubsOf, errsOf, List.filterMap_cons, h1, h2f]
      · have h2t : hasTasksToDo e.tasks = true := by simpa using h2
        rw [if_neg h2]
        cases ha : applyDS e.dsid with
        | ok u =>
          rw [ih (acc.1 ++ [e.dsid], acc.2)]
          simp [pubsOf, errsOf, List.filterMap_cons, h1, h2t, ha, List.append_assoc]
        | error err =>
          rw [ih (acc.1, acc.2 ++ [err])]
          simp [pubsOf, errsOf, List.filterMap_cons, h1, h2t, ha, List.append_assoc]

/-- Claim C9: an error in one datasource's apply aborts only that datasource;
every other non-skipped datasource is still attempted and published; and when
any errors were collected, the compensating refresh call is issued over the
whole task dictionary and the aggregate error carries exactly the collected
errors, in order. -/
theorem claim_C9_partial_failure_isolation (excluded : List String)
    (applyDS : String → Except String Unit) (entries : List DSEntry) :
    (updateExecute excluded applyDS entries).published = pubsOf excluded applyDS entries ∧
    (updateExecute excluded applyDS entries).errors = errsOf excluded applyDS entries ∧
    (errsOf excluded applyDS entries ≠ [] →
      (updateExecute excluded applyDS entries).refresh_arg = some entries ∧
      (updateExecute excluded applyDS entries).raised =
        some (errsOf excluded applyDS entries)) ∧
    (errsOf excluded applyDS entries = [] →
      (updateExecute excluded applyDS entries).refresh_arg = none ∧
      (updateExecute excluded applyDS entries).raised = none) := by
  have hchar := updateExecute_fold_char excluded applyDS entries ([], [])
  unfold updateExecute
  dsimp only
  rw [hchar]
  dsimp only
  by_cases he : errsOf excluded applyDS entries = []
  · rw [if_pos (by simp [he])]
    refine ⟨by simp, by simp [he], ?_, ?_⟩
    · intro h; exact absurd he h
    · intro _; exact ⟨rfl, rfl⟩
  · rw [if_neg (by simp [he])]
    refine ⟨by simp, by simp, ?_, ?_⟩
    · intro _; exact ⟨rfl, by simp⟩
    · intro h; exact absurd h he

/-- Witness for claim C9, the spec scenario: three datasources, the second
apply raises; the first and third are still published, the refresh call covers
all three, and the aggregate error names only the failure of the second. -/
theorem claim_C9_witness :
    errsOf [] (fun s => if s == "ds2" then Except.error "boom ds2" else Except.ok ())
      [⟨"ds1", "N1", ⟨[], [], [], ["F"], [], []⟩⟩,
       ⟨"ds2", "N2", ⟨[], [], [], ["F"], [], []⟩⟩,
       ⟨"ds3", "N3", ⟨[], [], [], ["F"], [], []⟩⟩] ≠ [] ∧
    (updateExecute [] (fun s => if s == "ds2" then Except.error "boom ds2" else Except.ok ())
      [⟨"ds1", "N1", ⟨[], [], [], ["F"], [], []⟩⟩,
       ⟨"ds2", "N2", ⟨[], [], [], ["F"], [], []⟩⟩,
       ⟨"ds3", "N3", ⟨[], [], [], ["F"], [], []⟩⟩]).published = ["ds1", "ds3"] ∧
    (updateExecute [] (fun s => if s == "ds2" then Except.error "boom ds2" else Except.ok ())
      [⟨"ds1", "N1", ⟨[], [], [], ["F"], [], []⟩⟩,
       ⟨"ds2", "N2", ⟨[], [], [], ["F"], [], []⟩⟩,
       ⟨"ds3", "N3", ⟨[], [], [], ["F"], [], []⟩⟩]).raised = some ["boom ds2"] := by
  refine ⟨by decide, ?_, ?_⟩
  · exact (claim_C9_partial_failure_isolation []
      (fun s => if s == "ds2" then Except.error "boom ds2" else Except.ok ())
      [⟨"ds1", "N1", ⟨[], [], [], ["F"], [], []⟩⟩,
       ⟨"ds2", "N2", ⟨[], [], [], ["F"], [], []⟩⟩,
       ⟨"ds3", "N3", ⟨[], [], [], ["F"], [], []⟩⟩]).1.trans (by decide)
  · exact ((claim_C9_partial_failure_isolation []
      (fun s => if s == "ds2" then Except.error "boom ds2" else Except.ok ())
      [⟨"ds1", "N1", ⟨[], [], [], ["F"], [], []⟩⟩,
       ⟨"ds2", "N2", ⟨[], [], [], ["F"], [], []⟩⟩,
       ⟨"ds3", "N3", ⟨[], [], [], ["F"], [], []⟩⟩]).2.2.1 (by decide)).2.trans (by decide)

/-! ## The section codec (Datasource.save, Datasource.__get_section,
Datasource.__remove_section_from_parent, tableau_file.py lines 178-219 and
346-366)

The document root is a list of XML elements, each an opaque payload under a
tag; a parsed section is a singleton entity, a list of entities, or a default
empty object.  The nine section tags and their order come from the sections
generator (lines 166-176); the tag strings of the entity classes are not in
the provided sources and are modelled from the tags appearing in the code and
its docstrings. -/

/-- An element of the document root: a tag and an opaque payload standing for
the element's attributes and children. -/
structure El where
  tag : String
  payload : String
  deriving DecidableEq

/-- The tag match of __remove_section_from_parent and __get_section (lines 188
and 204): the element tag ends with the fcp true... variant of the section
tag, or equals it, or is the special layout prefix form when the section is
the layout. -/
def matchesTag (secTag elTag : String) : Bool :=
  pyEndsWith elTag ("true..." ++ secTag) || elTag == secTag ||
    (pyStartsWith elTag ("layout _.fcp.SchemaViewerObjectModel.false...") && secTag == "layout")

/-- The nine sections in the order of Datasource.sections (lines 166-176),
with the enforce-list flag of __get_section (line 148 passes enforce_list for
the columns section). -/
def TAGS : List (String × Bool) :=
  [("connection", false), ("aliases", false), ("column", true), ("column-instance", false),
   ("drill-paths", false), ("folders-common", false), ("date-options", false),
   ("extract", false), ("layout", false)]

/-- The section tag names in order. -/
def TagNames : List String := TAGS.map Prod.fst

/-- The in-memory value of one section slot: a single entity, a list of
entities, or the default object returned when nothing parsed. -/
inductive SecVal where
  | single (p : String)
  | items (l : List String)
  | empty
  deriving DecidableEq

/-- The entity payloads of a section value. -/
def secToList : SecVal → List String
  | .single p => [p]
  | .items l => l
  | .empty => []

/-- The Python falsy test of save (line 351): a default object and an empty
entity list are skipped. -/
def secFalsy : SecVal → Bool
  | .single _ => false
  | .items l => l.isEmpty
  | .empty => true

/-- Datasource.__get_section (lines 193-219) for one section slot: collect the
matching elements; two or more parse to a list, exactly one parses to a list
only under enforce_list, and none yields the empty list or the default
object. -/
def parseSec (root : List El) (t : String) (enforceList : Bool) : SecVal :=
  match (root.filter (fun e => matchesTag t e.tag)).map El.payload with
  | [] => if enforceList then .items [] else .empty
  | [p] => if enforceList then .items [p] else .single p
  | ps => .items ps

/-- Python list.insert semantics: a negative index counts from the end and is
clamped at zero, an index beyond the end appends. -/
def pyInsert (l : List El) (i : Int) (x : El) : List El :=
  let j : Nat := if i < 0 then ((l.length : Int) + i).toNat else min i.toNat l.length
  l.take j ++ x :: l.drop j

/-- One iteration of the save loop (lines 350-365) over one section: skip a
falsy section; otherwise remove the matching elements (removal is by element
identity, hence exactly the matching elements), then insert the section's
current entities at the first removed index, or at the running cursor when
none existed.  A list section is reversed in place before insertion (line
360), so the returned slot carries the reversed list; the cursor becomes the
index after the insertion for lists, or the index after the last removed
element for singletons. -/
def saveStep (st : List El × Int) (sec : String × Bool × SecVal) :
    (List El × Int) × (String × Bool × SecVal) :=
  if secFalsy sec.2.2 then (st, sec)
  else
    let elems := st.1.enum.filter (fun p => matchesTag sec.1 p.2.tag)
    let parent' := st.1.filter (fun e => !(matchesTag sec.1 e.tag))
    let starting : Int := match elems.head? with
      | some p => (p.1 : Int)
      | none => st.2
    match sec.2.2 with
    | SecVal.items l =>
      let parent'' := (l.reverse).foldl (fun acc p => pyInsert acc starting ⟨sec.1, p⟩) parent'
      ((parent'', starting + l.length), (sec.1, sec.2.1, SecVal.items l.reverse))
    | SecVal.single p =>
      let ending : Int := match elems.getLast? with
        | some q => (q.1 : Int) + 1
        | none => starting
      ((pyInsert parent' starting ⟨sec.1, p⟩, ending), sec)
    | SecVal.empty => (st, sec)

/-- The in-memory document: the element root and the nine section slots. -/
structure Doc where
  root : List El
  secs : List (String × Bool × SecVal)
  deriving DecidableEq

/-- Datasource.save (lines 346-366): fold the save step over the sections in
order, starting the cursor at minus one; the result is the written root and
the mutated in-memory document (whose list sections remain reversed). -/
def saveDoc (d : Doc) : List El × Doc :=
  let res := d.secs.foldl
    (fun acc sec => ((saveStep acc.1 sec).1, acc.2 ++ [(saveStep acc.1 sec).2]))
    ((d.root, -1), ([] : List (String × Bool × SecVal)))
  (res.1.1, ⟨res.1.1, res.2⟩)

/-- Opening a document: parse each of the nine section slots from the root. -/
def openDoc (root : List El) : Doc :=
  ⟨root, TAGS.map (fun tb => (tb.1, tb.2, parseSec root tb.1 tb.2))⟩

/-- The section kind of an element tag: the first section whose matcher
accepts it. -/
def sectionTagOf (g : String) : Option String :=
  (TAGS.find? (fun tb => matchesTag tb.1 g)).map Prod.fst

/-- The sequence of section kinds of the elements of a root. -/
def tagTrace (root : List El) : List String := root.filterMap (fun e => sectionTagOf e.tag)

/-- First-occurrence deduplication. -/
def firstDedupAux : List String → List String → List String
  | _, [] => []
  | seen, x :: xs =>
    if x ∈ seen then firstDedupAux seen xs else x :: firstDedupAux (x :: seen) xs

/-- The order in which the sections occur in a root, by first occurrence. -/
def sectionOrder (root : List El) : List String := firstDedupAux [] (tagTrace root)

/-- Well-formedness of a root: no element is claimed by two different section
matchers (the ad hoc suffix and prefix rules do not overlap on it). -/
def HdisjAt (g : String) : Prop :=
  ∀ t1 ∈ TagNames, ∀ t2 ∈ TagNames,
    matchesTag t1 g = true → matchesTag t2 g = true → t1 = t2

/-- Well-formedness of every element of a root. -/
def Hdisj (root : List El) : Prop := ∀ e ∈ root, HdisjAt e.tag

set_option maxRecDepth 8000 in
theorem tag_plain_unique : ∀ t1 ∈ TagNames, ∀ t2 ∈ TagNames,
    matchesTag t2 t1 = true → t1 = t2 := by decide

set_option maxRecDepth 8000 in
theorem tag_self : ∀ t ∈ TagNames, matchesTag t t = true := by decide

set_option maxRecDepth 8000 in
theorem sectionTagOf_plain : ∀ t ∈ TagNames, sectionTagOf t = some t := by decide

theorem pyInsert_append (A Z : List El) (x : El) :
    pyInsert (A ++ Z) (A.length : Int) x = A ++ x :: Z := by
  unfold pyInsert
  rw [if_neg (by omega)]
  simp only [Int.toNat_natCast, List.length_append]
  rw [Nat.min_eq_left (Nat.le_add_right _ _), List.take_left, List.drop_left]

theorem insertFold (t : String) (A C : List El) (ps : List String) :
    (ps.reverse).foldl (fun acc p => pyInsert acc (A.length : Int) ⟨t, p⟩) (A ++ C) =
      A ++ ps.map (fun p => El.mk t p) ++ C := by
  rw [List.foldl_reverse]
  induction ps with
  | nil => simp
  | cons p ps ih =>
    rw [List.foldr_cons, ih, List.append_assoc, pyInsert_append]
    simp

theorem sectionTagOf_matches {g τ : String} (h : sectionTagOf g = some τ) :
    matchesTag τ g = true ∧ τ ∈ TagNames := by
  unfold sectionTagOf at h
  cases hf : TAGS.find? (fun tb => matchesTag tb.1 g) with
  | none => rw [hf] at h; cases h
  | some tb =>
    rw [hf] at h
    have h1 := List.find?_some hf
    have h2 := List.mem_of_find?_eq_some hf
    have hfst : tb.1 = τ := by simpa using h
    subst hfst
    exact ⟨by simpa using h1, List.mem_map_of_mem Prod.fst h2⟩

theorem sectionTagOf_of_matches {g t : String} (ht : t ∈ TagNames)
    (hm : matchesTag t g = true) (hd : HdisjAt g) : sectionTagOf g = some t := by
  cases hf : TAGS.find? (fun tb => matchesTag tb.1 g) with
  | none =>
    exfalso
    obtain ⟨tb, htb, hfst⟩ := List.mem_map.mp ht
    have hn := List.find?_eq_none.mp hf tb htb
    rw [hfst] at hn
    exact hn (by simpa using hm)
  | some tb =>
    have h1 := List.find?_some hf
    have h2 := List.mem_of_find?_eq_some hf
    have heq : tb.1 = t :=
      hd tb.1 (List.mem_map_of_mem Prod.fst h2) t ht (by simpa using h1) hm
    unfold sectionTagOf
    rw [hf]
    simp [heq]

theorem trace_inserted (t : String) (ht : t ∈ TagNames) (ps : List String) :
    tagTrace (ps.map (fun p => El.mk t p)) = List.replicate ps.length t := by
  induction ps with
  | nil => rfl
  | cons p ps ih =>
    simp only [List.map_cons, tagTrace, List.filterMap_cons] at ih ⊢
    rw [show sectionTagOf (El.mk t p).tag = some t from sectionTagOf_plain t ht]
    rw [ih, List.length_cons, List.replicate_succ]

theorem filter_inserted_self (t : String) (ht : t ∈ TagNames) (ps : List String) :
    (ps.map (fun p => El.mk t p)).filter (fun e => matchesTag t e.tag) =
      ps.map (fun p => El.mk t p) := by
  rw [List.filter_eq_self]
  intro e he
  obtain ⟨p, _, hp⟩ := List.mem_map.mp he
  rw [← hp]
  exact tag_self t ht

theorem filter_inserted_other {t t' : String} (ht : t ∈ TagNames) (ht' : t' ∈ TagNames)
    (hne : t' ≠ t) (ps : List String) :
    (ps.map (fun p => El.mk t p)).filter (fun e => matchesTag t' e.tag) = [] := by
  rw [List.filter_eq_nil_iff]
  intro e he hm
  obtain ⟨p, _, hp⟩ := List.mem_map.mp he
  rw [← hp] at hm
  exact hne (tag_plain_unique t ht t' ht' (by simpa using hm)).symm

theorem not_mem_trace {t : String} {A : List El}
    (h : ∀ e ∈ A, matchesTag t e.tag = false) : t ∉ tagTrace A := by
  intro hmem
  obtain ⟨e, he, hto⟩ := List.mem_filterMap.mp hmem
  have hm := (sectionTagOf_matches hto).1
  rw [h e he] at hm
  cases hm

theorem fd_replicate {t : String} :
    ∀ (k : Nat) (seen Z : List String), t ∈ seen →
      firstDedupAux seen (List.replicate k t ++ Z) = firstDedupAux seen Z := by
  intro k
  induction k with
  | zero => intro seen Z _; rfl
  | succ k ih =>
    intro seen Z h
    rw [List.replicate_succ, List.cons_append]
    simp only [firstDedupAux]
    rw [if_pos h]
    exact ih seen Z h

theorem fd_filter {t : String} :
    ∀ (Y seen : List String), t ∈ seen →
      firstDedupAux seen (Y.filter (fun τ => τ != t)) = firstDedupAux seen Y := by
  intro Y
  induction Y with
  | nil => intro seen _; rfl
  | cons y Y ih =>
    intro seen h
    by_cases hy : y = t
    · subst hy
      rw [List.filter_cons, if_neg (by simp)]
      simp only [firstDedupAux]
      rw [if_pos h]
      exact ih seen h
    · rw [List.filter_cons, if_pos (by simp [hy])]
      simp only [firstDedupAux]
      by_cases hseen : y ∈ seen
      · rw [if_pos hseen, if_pos hseen]
        exact ih seen h
      · rw [if_neg hseen, if_neg hseen, ih (y :: seen) (List.mem_cons_of_mem y h)]

theorem fd_congr {t : String} :
    ∀ (X seen Y : List String) (k : Nat), 1 ≤ k → t ∉ X →
      firstDedupAux seen (X ++ (List.replicate k t ++ Y.filter (fun τ => τ != t))) =
      firstDedupAux seen (X ++ t :: Y) := by
  intro X
  induction X with
  | nil =>
    intro seen Y k hk hX
    cases k with
    | zero => omega
    | succ k =>
      rw [List.nil_append, List.nil_append, List.replicate_succ, List.cons_append]
      simp only [firstDedupAux]
      by_cases hseen : t ∈ seen
      · rw [if_pos hseen, if_pos hseen, fd_replicate k seen _ hseen]
        exact fd_filter Y seen hseen
      · rw [if_neg hseen, if_neg hseen]
        congr 1
        rw [fd_replicate k (t :: seen) _ (List.mem_cons_self t seen)]
        exact fd_filter Y (t :: seen) (List.mem_cons_self t seen)
  | cons x X ih =>
    intro seen Y k hk hX
    rw [List.cons_append, List.cons_append]
    simp only [firstDedupAux]
    by_cases hseen : x ∈ seen
    · rw [if_pos hseen, if_pos hseen]
      exact ih seen Y k hk (fun h => hX (List.mem_cons_of_mem x h))
    · rw [if_neg hseen, if_neg hseen]
      congr 1
      exact ih (x :: seen) Y k hk (fun h => hX (List.mem_cons_of_mem x h))

theorem trace_filterOut {t : String} (ht : t ∈ TagNames) :
    ∀ (B : List El), (∀ e ∈ B, HdisjAt e.tag) →
      tagTrace (B.filter (fun e => !(matchesTag t e.tag))) =
        (tagTrace B).filter (fun τ => τ != t) := by
  intro B
  induction B with
  | nil => intro _; rfl
  | cons e B ih =>
    intro hd
    have hde := hd e (List.mem_cons_self e B)
    have hdB := fun x hx => hd x (List.mem_cons_of_mem e hx)
    by_cases hP : matchesTag t e.tag = true
    · have hto : sectionTagOf e.tag = some t := sectionTagOf_of_matches ht hP hde
      rw [List.filter_cons, if_neg (by simp [hP])]
      rw [show tagTrace (e :: B) = t :: tagTrace B from by
        simp [tagTrace, List.filterMap_cons, hto]]
      rw [List.filter_cons, if_neg (by simp)]
      exact ih hdB
    · rw [List.filter_cons, if_pos (by simp [hP])]
      cases hto : sectionTagOf e.tag with
      | none =>
        rw [show tagTrace (e :: List.filter (fun e => !matchesTag t e.tag) B) =
            tagTrace (List.filter (fun e => !matchesTag t e.tag) B) from by
          simp [tagTrace, List.filterMap_cons, hto]]
        rw [show tagTrace (e :: B) = tagTrace B from by
          simp [tagTrace, List.filterMap_cons, hto]]
        exact ih hdB
      | some τ =>
        have hτ : (τ != t) = true := by
          simp only [bne_iff_ne, ne_eq]
          intro hc
          subst hc
          exact hP (sectionTagOf_matches hto).1
        rw [show tagTrace (e :: List.filter (fun e => !matchesTag t e.tag) B) =
            τ :: tagTrace (List.filter (fun e => !matchesTag t e.tag) B) from by
          simp [tagTrace, List.filterMap_cons, hto]]
        rw [show tagTrace (e :: B) = τ :: tagTrace B from by
          simp [tagTrace, List.filterMap_cons, hto]]
        rw [List.filter_cons, if_pos hτ]
        exact congrArg (List.cons τ) (ih hdB)

theorem enumFrom_filter_head (P : El → Bool) :
    ∀ (l : List El) (n : Nat),
      ((l.enumFrom n).filter (fun p => P p.2)).head? =
        (l.dropWhile (fun e => !(P e))).head?.map
          (fun e => (n + (l.takeWhile (fun e => !(P e))).length, e)) := by
  intro l
  induction l with
  | nil => intro n; rfl
  | cons x xs ih =>
    intro n
    rw [List.enumFrom_cons]
    by_cases hP : P x = true
    · rw [List.filter_cons, if_pos (by simpa using hP)]
      rw [List.dropWhile_cons_of_neg (by simp [hP]), List.takeWhile_cons_of_neg (by simp [hP])]
      simp
    · rw [List.filter_cons, if_neg (by simpa using hP)]
      rw [List.dropWhile_cons_of_pos (by simp [hP]), List.takeWhile_cons_of_pos (by simp [hP])]
      rw [ih (n + 1)]
      congr 1
      funext e
      simp only [List.length_cons]
      rw [Prod.mk.injEq]
      exact ⟨by omega, rfl⟩

theorem parent_decomp {t : String} {parent : List El}
    (hne : parent.filter (fun e => matchesTag t e.tag) ≠ []) :
    ∃ e₀ B, parent.dropWhile (fun e => !(matchesTag t e.tag)) = e₀ :: B ∧
      matchesTag t e₀.tag = true ∧
      parent.takeWhile (fun e => !(matchesTag t e.tag)) ++ e₀ :: B = parent ∧
      (∀ e ∈ parent.takeWhile (fun e => !(matchesTag t e.tag)),
        matchesTag t e.tag = false) := by
  cases hd : parent.dropWhile (fun e => !(matchesTag t e.tag)) with
  | nil =>
    exfalso
    apply hne
    rw [List.filter_eq_nil_iff]
    intro e he hm
    have := List.dropWhile_eq_nil_iff.mp hd e he
    rw [hm] at this
    cases this
  | cons e₀ B =>
    have hw : parent.dropWhile (fun e => !(matchesTag t e.tag)) ≠ [] := by
      rw [hd]; simp
    have hhead := List.head_dropWhile_not (fun e => !(matchesTag t e.tag)) parent hw
    have hP : matchesTag t e₀.tag = true := by
      have he₀ : (parent.dropWhile (fun e => !(matchesTag t e.tag))).head hw = e₀ := by
        rw [List.head_eq_iff_head?_eq_some]
        rw [hd]
        rfl
      rw [he₀] at hhead
      simpa using hhead
    refine ⟨e₀, B, rfl, hP, ?_, ?_⟩
    · rw [← hd]
      exact List.takeWhile_append_dropWhile _ _
    · intro e he
      have := List.mem_takeWhile_imp he
      simpa using this

/-- Conclusions about the root produced by one save step: the section's
elements were replaced in place by the serialized entities. -/
theorem root1_conclusions {t : String} (ht : t ∈ TagNames) {parent A B : List El}
    {e₀ : El} (ps : List String)
    (hsplit : A ++ e₀ :: B = parent) (hPe₀ : matchesTag t e₀.tag = true)
    (hAnone : ∀ e ∈ A, matchesTag t e.tag = false)
    (hdisj : Hdisj parent) (hk : 1 ≤ ps.length) :
    ((A ++ ps.map (fun p => El.mk t p) ++
        B.filter (fun e => !(matchesTag t e.tag))).filter
          (fun e => matchesTag t e.tag) = ps.map (fun p => El.mk t p)) ∧
    (∀ t' ∈ TagNames, t' ≠ t →
      (A ++ ps.map (fun p => El.mk t p) ++
        B.filter (fun e => !(matchesTag t e.tag))).filter
          (fun e => matchesTag t' e.tag) =
        parent.filter (fun e => matchesTag t' e.tag)) ∧
    Hdisj (A ++ ps.map (fun p => El.mk t p) ++
      B.filter (fun e => !(matchesTag t e.tag))) ∧
    sectionOrder (A ++ ps.map (fun p => El.mk t p) ++
      B.filter (fun e => !(matchesTag t e.tag))) = sectionOrder parent := by
  have hmemA : ∀ e ∈ A, e ∈ parent := fun e he =>
    hsplit ▸ List.mem_append_left _ he
  have hmemB : ∀ e ∈ B, e ∈ parent := fun e he =>
    hsplit ▸ List.mem_append_right _ (List.mem_cons_of_mem _ he)
  have he₀mem : e₀ ∈ parent := hsplit ▸ List.mem_append_right _ (List.mem_cons_self _ _)
  have hfilA : A.filter (fun e => matchesTag t e.tag) = [] :=
    List.filter_eq_nil_iff.mpr (fun e he hm => by rw [hAnone e he] at hm; cases hm)
  have hfilB : (B.filter (fun e => !(matchesTag t e.tag))).filter
      (fun e => matchesTag t e.tag) = [] := by
    rw [List.filter_filter]
    exact List.filter_eq_nil_iff.mpr (fun e he => by
      cases hm : matchesTag t e.tag
      · simp [hm]
      · simp [hm])
  refine ⟨?_, ?_, ?_, ?_⟩
  · rw [List.filter_append, List.filter_append, hfilA, hfilB,
      filter_inserted_self t ht ps]
    simp
  · intro t' ht' hne
    have hB : (B.filter (fun e => !(matchesTag t e.tag))).filter
        (fun e => matchesTag t' e.tag) = B.filter (fun e => matchesTag t' e.tag) := by
      rw [List.filter_filter]
      apply List.filter_congr
      intro e he
      cases hm' : matchesTag t' e.tag
      · simp [hm']
      · have hmt : matchesTag t e.tag = false := by
          cases hmt : matchesTag t e.tag
          · rfl
          · exact absurd (hdisj e (hmemB e he) t' ht' t ht hm' hmt) hne
        simp [hm', hmt]
    have he₀' : matchesTag t' e₀.tag = false := by
      cases hm' : matchesTag t' e₀.tag
      · rfl
      · exact absurd (hdisj e₀ he₀mem t' ht' t ht hm' hPe₀) hne
    rw [List.filter_append, List.filter_append, filter_inserted_other ht ht' hne, hB,
      ← hsplit, List.filter_append, List.filter_cons, if_neg (by simp [he₀'])]
    simp
  · intro e he
    rcases List.mem_append.mp he with h1 | h2
    · rcases List.mem_append.mp h1 with ha | hins
      · exact hdisj e (hmemA e ha)
      · obtain ⟨p, _, hp⟩ := List.mem_map.mp hins
        intro t1 ht1 t2 ht2 hm1 hm2
        rw [← hp] at hm1 hm2
        exact (tag_plain_unique t ht t1 ht1 hm1).symm.trans
          (tag_plain_unique t ht t2 ht2 hm2)
    · exact hdisj e (hmemB e (List.mem_of_mem_filter h2))
  · have hdB : ∀ e ∈ B, HdisjAt e.tag := fun e he => hdisj e (hmemB e he)
    have htr1 : tagTrace (A ++ ps.map (fun p => El.mk t p) ++
        B.filter (fun e => !(matchesTag t e.tag))) =
        tagTrace A ++ (List.replicate ps.length t ++ (tagTrace B).filter (fun τ => τ != t)) := by
      unfold tagTrace
      rw [List.filterMap_append, List.filterMap_append]
      rw [show (ps.map (fun p => El.mk t p)).filterMap (fun e => sectionTagOf e.tag) =
        List.replicate ps.length t from trace_inserted t ht ps]
      rw [show (B.filter (fun e => !(matchesTag t e.tag))).filterMap
          (fun e => sectionTagOf e.tag) =
        (B.filterMap (fun e => sectionTagOf e.tag)).filter (fun τ => τ != t) from
        trace_filterOut ht B hdB]
      rw [List.append_assoc]
    have htr2 : tagTrace parent = tagTrace A ++ t :: tagTrace B := by
      rw [← hsplit]
      unfold tagTrace
      rw [List.filterMap_append, List.filterMap_cons]
      rw [sectionTagOf_of_matches ht hPe₀ (hdisj e₀ he₀mem)]
    unfold sectionOrder
    rw [htr1, htr2]
    exact fd_congr (tagTrace A) [] (tagTrace B) ps.length hk
      (not_mem_trace hAnone)

/-- One save step: a falsy section leaves the root unchanged; otherwise the
section's elements are rewritten in place (the slot filter becomes the
serialized entities, other slots are untouched, well-formedness and the
section order are preserved). -/
theorem saveStep_spec (parent : List El) (cur : Int) (t : String) (b : Bool) (v : SecVal)
    (ht : t ∈ TagNames) (hdisj : Hdisj parent)
    (hpres1 : secFalsy v = false → parent.filter (fun e => matchesTag t e.tag) ≠ [])
    (hpres0 : secFalsy v = true → parent.filter (fun e => matchesTag t e.tag) = []) :
    ((saveStep (parent, cur) (t, b, v)).1.1.filter (fun e => matchesTag t e.tag) =
      (secToList v).map (fun p => El.mk t p)) ∧
    (∀ t' ∈ TagNames, t' ≠ t →
      (saveStep (parent, cur) (t, b, v)).1.1.filter (fun e => matchesTag t' e.tag) =
        parent.filter (fun e => matchesTag t' e.tag)) ∧
    Hdisj ((saveStep (parent, cur) (t, b, v)).1.1) ∧
    sectionOrder ((saveStep (parent, cur) (t, b, v)).1.1) = sectionOrder parent := by
  cases hf : secFalsy v with
  | true =>
    have hstep : (saveStep (parent, cur) (t, b, v)).1.1 = parent := by
      unfold saveStep
      dsimp only
      rw [if_pos hf]
    rw [hstep]
    refine ⟨?_, fun t' _ _ => rfl, hdisj, rfl⟩
    rw [hpres0 hf]
    cases v with
    | single p => simp [secFalsy] at hf
    | items l =>
      have : l = [] := by
        cases l with
        | nil => rfl
        | cons a as => simp [secFalsy] at hf
      subst this
      rfl
    | empty => rfl
  | false =>
    have hne := hpres1 hf
    obtain ⟨e₀, B, hdrop, hPe₀, hsplit, hAnone⟩ := parent_decomp hne
    have henum : ((parent.enum.filter (fun p => matchesTag t p.2.tag))).head? =
        some ((parent.takeWhile (fun e => !(matchesTag t e.tag))).length, e₀) := by
      have h := enumFrom_filter_head (fun e => matchesTag t e.tag) parent 0
      rw [hdrop] at h
      simpa using h
    have hparent' : parent.filter (fun e => !(matchesTag t e.tag)) =
        parent.takeWhile (fun e => !(matchesTag t e.tag)) ++
          B.filter (fun e => !(matchesTag t e.tag)) := by
      conv_lhs => rw [← hsplit]
      rw [List.filter_append, List.filter_cons, if_neg (by simp [hPe₀]),
        List.filter_eq_self.mpr (fun e he => by simp [hAnone e he])]
    cases v with
    | empty => simp [secFalsy] at hf
    | single p =>
      have hroot : (saveStep (parent, cur) (t, b, SecVal.single p)).1.1 =
          parent.takeWhile (fun e => !(matchesTag t e.tag)) ++
            ([p] : List String).map (fun q => El.mk t q) ++
            B.filter (fun e => !(matchesTag t e.tag)) := by
        unfold saveStep
        dsimp only
        rw [if_neg (by simp [secFalsy])]
        dsimp only
        rw [henum]
        dsimp only
        rw [hparent', pyInsert_append]
        simp
      rw [hroot]
      exact root1_conclusions ht [p] hsplit hPe₀ hAnone hdisj (by simp)
    | items l =>
      have hE : l.isEmpty = false := hf
      have hl : l ≠ [] := fun h => by subst h; simp at hE
      have hroot : (saveStep (parent, cur) (t, b, SecVal.items l)).1.1 =
          parent.takeWhile (fun e => !(matchesTag t e.tag)) ++
            l.map (fun q => El.mk t q) ++
            B.filter (fun e => !(matchesTag t e.tag)) := by
        unfold saveStep
        dsimp only
        rw [if_neg (by simp [secFalsy, hE])]
        dsimp only
        rw [henum]
        dsimp only
        rw [hparent']
        exact insertFold t _ _ l
      rw [hroot]
      exact root1_conclusions ht l hsplit hPe₀ hAnone hdisj (List.length_pos.mpr hl)

/-- The in-memory slot left behind by one save step: a list section is
reversed in place (line 360), the other shapes are untouched. -/
def secOut : SecVal → SecVal
  | SecVal.items l => SecVal.items l.reverse
  | SecVal.single p => SecVal.single p
  | SecVal.empty => SecVal.empty

/-- The slot returned by a save step depends only on the slot itself: it is
the slot with list sections reversed. -/
theorem saveStep_snd (st : List El × Int) (sec : String × Bool × SecVal) :
    (saveStep st sec).2 = (sec.1, sec.2.1, secOut sec.2.2) := by
  obtain ⟨t, b, v⟩ := sec
  cases v with
  | single p => rfl
  | empty => rfl
  | items l =>
    cases l with
    | nil => rfl
    | cons a as => rfl

/-- The save fold splits: the root component is a plain fold of the root
steps, and the collected slots are a map of the per-slot mutation. -/
theorem saveFold_split :
    ∀ (secs : List (String × Bool × SecVal)) (st : List El × Int)
      (out : List (String × Bool × SecVal)),
      secs.foldl
        (fun acc sec => ((saveStep acc.1 sec).1, acc.2 ++ [(saveStep acc.1 sec).2]))
        (st, out) =
      (secs.foldl (fun s sec => (saveStep s sec).1) st,
       out ++ secs.map (fun sec => (sec.1, sec.2.1, secOut sec.2.2))) := by
  intro secs
  induction secs with
  | nil => intro st out; simp
  | cons sec secs ih =>
    intro st out
    simp only [List.foldl_cons, List.map_cons]
    rw [ih, saveStep_snd]
    simp

/-- The save fold over a run of sections with pairwise distinct tags: every
visited slot ends up written exactly, untouched slots keep their elements,
well-formedness and the section order are preserved. -/
theorem saveFold_spec :
    ∀ (todo : List (String × Bool × SecVal)) (root : List El) (cur : Int),
      (∀ s ∈ todo, s.1 ∈ TagNames) →
      (todo.map (fun s => s.1)).Nodup →
      Hdisj root →
      (∀ s ∈ todo,
        (secFalsy s.2.2 = false → root.filter (fun e => matchesTag s.1 e.tag) ≠ []) ∧
        (secFalsy s.2.2 = true → root.filter (fun e => matchesTag s.1 e.tag) = [])) →
      (∀ s ∈ todo,
        (todo.foldl (fun st sec => (saveStep st sec).1) (root, cur)).1.filter
            (fun e => matchesTag s.1 e.tag) =
          (secToList s.2.2).map (fun p => El.mk s.1 p)) ∧
      (∀ t' ∈ TagNames, (∀ s ∈ todo, t' ≠ s.1) →
        (todo.foldl (fun st sec => (saveStep st sec).1) (root, cur)).1.filter
            (fun e => matchesTag t' e.tag) =
          root.filter (fun e => matchesTag t' e.tag)) ∧
      Hdisj (todo.foldl (fun st sec => (saveStep st sec).1) (root, cur)).1 ∧
      sectionOrder (todo.foldl (fun st sec => (saveStep st sec).1) (root, cur)).1 =
        sectionOrder root := by
  intro todo
  induction todo with
  | nil =>
    intro root cur _ _ hdisj _
    exact ⟨fun s hs => absurd hs (List.not_mem_nil s), fun t' _ _ => rfl, hdisj, rfl⟩
  | cons s todo ih =>
    intro root cur htags hnd hdisj hpres
    obtain ⟨t, b, v⟩ := s
    have ht : t ∈ TagNames := htags _ (List.mem_cons_self _ _)
    have hstep := saveStep_spec root cur t b v ht hdisj
      (hpres _ (List.mem_cons_self _ _)).1 (hpres _ (List.mem_cons_self _ _)).2
    obtain ⟨hself, hother, hdisj1, hord1⟩ := hstep
    have hnotmem : t ∉ todo.map (fun s => s.1) := by
      have := hnd
      rw [List.map_cons] at this
      exact (List.nodup_cons.mp this).1
    have hne' : ∀ s' ∈ todo, t ≠ s'.1 := by
      intro s' hs' h
      exact hnotmem (h ▸ List.mem_map_of_mem (fun s => s.1) hs')
    have ihres := ih (saveStep (root, cur) (t, b, v)).1.1
      (saveStep (root, cur) (t, b, v)).1.2
      (fun s' hs' => htags s' (List.mem_cons_of_mem _ hs'))
      (by
        rw [List.map_cons] at hnd
        exact (List.nodup_cons.mp hnd).2)
      hdisj1
      (fun s' hs' => by
        have hfr := hother s'.1 (htags s' (List.mem_cons_of_mem _ hs'))
          (fun h => hne' s' hs' h.symm)
        rw [hfr]
        exact hpres s' (List.mem_cons_of_mem _ hs'))
    obtain ⟨ih1, ih2, ih3, ih4⟩ := ihres
    have hfold : ((t, b, v) :: todo).foldl (fun st sec => (saveStep st sec).1) (root, cur) =
        todo.foldl (fun st sec => (saveStep st sec).1)
          ((saveStep (root, cur) (t, b, v)).1.1, (saveStep (root, cur) (t, b, v)).1.2) := by
      rw [List.foldl_cons]
    rw [hfold]
    refine ⟨?_, ?_, ih3, ih4.trans hord1⟩
    · intro s' hs'
      rcases List.mem_cons.mp hs' with h | h
      · subst h
        rw [ih2 t ht (fun s'' hs'' => hne' s'' hs'')]
        exact hself
      · exact ih1 s' h
    · intro t' ht' hall
      rw [ih2 t' ht' (fun s'' hs'' => hall s'' (List.mem_cons_of_mem _ hs''))]
      exact hother t' ht' (hall _ (List.mem_cons_self _ _))

/-- The root component of save is the plain fold of the root steps. -/
theorem saveDoc_fst (d : Doc) :
    (saveDoc d).1 = (d.secs.foldl (fun st sec => (saveStep st sec).1) (d.root, -1)).1 := by
  unfold saveDoc
  dsimp only
  rw [saveFold_split]

/-- The slots of the document returned by save are the original slots with
list sections reversed. -/
theorem saveDoc_snd_secs (d : Doc) :
    (saveDoc d).2.secs = d.secs.map (fun sec => (sec.1, sec.2.1, secOut sec.2.2)) := by
  unfold saveDoc
  dsimp only
  rw [saveFold_split]
  simp

/-- Reading a section slot back from a root whose matching elements are
exactly the serialized entities recovers the entity content, whatever the
enforce-list flag resolves the one-element and empty shapes to. -/
theorem parseSec_of_filter (root : List El) (t : String) (b : Bool) (ps : List String)
    (h : root.filter (fun e => matchesTag t e.tag) = ps.map (fun p => El.mk t p)) :
    secToList (parseSec root t b) = ps := by
  unfold parseSec
  rw [h, List.map_map]
  have hid : (El.payload ∘ fun p => El.mk t p) = id := rfl
  rw [hid, List.map_id]
  cases ps with
  | nil => cases b <;> rfl
  | cons p ps' =>
    cases ps' with
    | nil => cases b <;> rfl
    | cons q ps'' => rfl

/-- The nine section tags are pairwise distinct. -/
theorem tagNames_nodup : TagNames.Nodup := by decide

/-- Equal maps over a list agree on its members. -/
theorem map_eq_of_map_eq {α β : Type} {f g : α → β} :
    ∀ (l : List α), l.map f = l.map g → ∀ a ∈ l, f a = g a := by
  intro l
  induction l with
  | nil => intro _ a ha; cases ha
  | cons x xs ih =>
    intro h a ha
    rw [List.map_cons, List.map_cons] at h
    rcases List.mem_cons.mp ha with h1 | h1
    · subst h1
      exact (List.cons.inj h).1
    · exact ih (List.cons.inj h).2 a h1

/-- A document opened from a single column element and then mutated in the
model only: every column is deleted from the columns list, nothing else is
touched.  The stale column element is still in the tree. -/
def c1Doc : Doc :=
  ⟨[El.mk "column" "c1"],
   TAGS.map (fun tb => (tb.1, tb.2,
     if tb.1 == "column"
     then SecVal.items ((secToList (parseSec [El.mk "column" "c1"] tb.1 tb.2)).filter
       (fun p => p != "c1"))
     else parseSec [El.mk "column" "c1"] tb.1 tb.2))⟩

/-- The tag list of a full slot assignment is the nine tag names. -/
theorem todoTags (vs : String × Bool → SecVal) :
    (TAGS.map (fun tb => (tb.1, tb.2, vs tb))).map (fun s => s.1) = TagNames := by
  rw [List.map_map]
  rfl

set_option maxRecDepth 8000 in
/-- C1: counterexample.  Delete every column of an opened document in the
model (the columns list becomes empty) and save: save skips the now-falsy
columns section (tableau_file.py line 351), so the stale column element
stays in the tree, and reopening the saved tree resurrects the deleted
column.  The reopened document's entity content differs from the in-memory
document's, refuting the unconditional round-trip. -/
theorem claim_C1_counterexample :
    (openDoc (saveDoc c1Doc).1).secs.map (fun s => (s.1, s.2.1, secToList s.2.2)) ≠
      c1Doc.secs.map (fun s => (s.1, s.2.1, secToList s.2.2)) := by decide

/-- C1 (amended): round-trip of the save/open codec.  For a document whose
tree is well-formed (no element is claimed by two section matchers) and in
which every section's presence in the tree matches its in-memory truthiness
(a falsy slot has no stale elements, a truthy slot has at least one element
to anchor its position), reopening the tree written by save reproduces every
slot's tag, enforce flag and entity content, and the first-occurrence
section order of the tree is unchanged. -/
theorem claim_C1_round_trip (root : List El) (vs : String × Bool → SecVal)
    (hdisj : Hdisj root)
    (hpres : ∀ tb ∈ TAGS,
      (secFalsy (vs tb) = false → root.filter (fun e => matchesTag tb.1 e.tag) ≠ []) ∧
      (secFalsy (vs tb) = true → root.filter (fun e => matchesTag tb.1 e.tag) = [])) :
    ((openDoc (saveDoc ⟨root, TAGS.map (fun tb => (tb.1, tb.2, vs tb))⟩).1).secs.map
        (fun s => (s.1, s.2.1, secToList s.2.2)) =
      TAGS.map (fun tb => (tb.1, tb.2, secToList (vs tb)))) ∧
    sectionOrder (openDoc (saveDoc ⟨root, TAGS.map (fun tb => (tb.1, tb.2, vs tb))⟩).1).root =
      sectionOrder root := by
  have htags : ∀ s ∈ TAGS.map (fun tb => (tb.1, tb.2, vs tb)), s.1 ∈ TagNames := by
    intro s hs
    obtain ⟨tb, htb, rfl⟩ := List.mem_map.mp hs
    exact List.mem_map_of_mem Prod.fst htb
  have hnodup : ((TAGS.map (fun tb => (tb.1, tb.2, vs tb))).map (fun s => s.1)).Nodup := by
    rw [todoTags]
    exact tagNames_nodup
  have hpres' : ∀ s ∈ TAGS.map (fun tb => (tb.1, tb.2, vs tb)),
      (secFalsy s.2.2 = false → root.filter (fun e => matchesTag s.1 e.tag) ≠ []) ∧
      (secFalsy s.2.2 = true → root.filter (fun e => matchesTag s.1 e.tag) = []) := by
    intro s hs
    obtain ⟨tb, htb, rfl⟩ := List.mem_map.mp hs
    exact hpres tb htb
  have hfold := saveFold_spec (TAGS.map (fun tb => (tb.1, tb.2, vs tb))) root (-1)
    htags hnodup hdisj hpres'
  rw [saveDoc_fst]
  dsimp only [openDoc]
  constructor
  · rw [List.map_map]
    apply List.map_congr_left
    intro tb htb
    dsimp only [Function.comp]
    rw [parseSec_of_filter _ tb.1 tb.2 (secToList (vs tb))
      (hfold.1 (tb.1, tb.2, vs tb) (List.mem_map_of_mem _ htb))]
  · exact hfold.2.2.2

set_option maxRecDepth 8000 in
/-- C1 witness: a tree holding one connection and one column element, opened
and saved unchanged, round-trips. -/
theorem claim_C1_witness :
    Hdisj [El.mk "connection" "cn", El.mk "column" "c1"] ∧
    (((openDoc (saveDoc ⟨[El.mk "connection" "cn", El.mk "column" "c1"],
        TAGS.map (fun tb => (tb.1, tb.2,
          parseSec [El.mk "connection" "cn", El.mk "column" "c1"] tb.1 tb.2))⟩).1).secs.map
        (fun s => (s.1, s.2.1, secToList s.2.2)) =
      TAGS.map (fun tb => (tb.1, tb.2,
        secToList (parseSec [El.mk "connection" "cn", El.mk "column" "c1"] tb.1 tb.2)))) ∧
    sectionOrder (openDoc (saveDoc ⟨[El.mk "connection" "cn", El.mk "column" "c1"],
        TAGS.map (fun tb => (tb.1, tb.2,
          parseSec [El.mk "connection" "cn", El.mk "column" "c1"] tb.1 tb.2))⟩).1).root =
      sectionOrder [El.mk "connection" "cn", El.mk "column" "c1"]) :=
  ⟨by unfold Hdisj HdisjAt; decide,
   claim_C1_round_trip [El.mk "connection" "cn", El.mk "column" "c1"]
     (fun tb => parseSec [El.mk "connection" "cn", El.mk "column" "c1"] tb.1 tb.2)
     (by unfold Hdisj HdisjAt; decide) (by decide)⟩

set_option maxRecDepth 8000 in
/-- C10: counterexample.  A columns list holding the two identical entities
a, a has two or more entities, yet after save the in-memory document is
order-identical to what it was: reversing a palindromic list is the
identity, so the claim's "is not order-identical" fails as stated for every
list whose reversal coincides with it. -/
theorem claim_C10_counterexample :
    (saveDoc (openDoc [El.mk "column" "a", El.mk "column" "a"])).2.secs =
      (openDoc [El.mk "column" "a", El.mk "column" "a"]).secs := by decide

/-- C10 (amended): save reverses every list-backed section in memory as a
side effect.  After save the document's slots are the original slots with
each list section reversed (line 360 reverses in place), the written tree
carries the columns in their original order (each entity is re-inserted at
the fixed starting index), and whenever the first and last column entities
differ the in-memory document is genuinely not order-identical to what it
was before save. -/
theorem claim_C10_save_reverses (root : List El) (vs : String × Bool → SecVal)
    (l : List String) (hdisj : Hdisj root)
    (hpres : ∀ tb ∈ TAGS,
      (secFalsy (vs tb) = false → root.filter (fun e => matchesTag tb.1 e.tag) ≠ []) ∧
      (secFalsy (vs tb) = true → root.filter (fun e => matchesTag tb.1 e.tag) = []))
    (hcol : vs ("column", true) = SecVal.items l) :
    ((saveDoc ⟨root, TAGS.map (fun tb => (tb.1, tb.2, vs tb))⟩).2.secs =
      TAGS.map (fun tb => (tb.1, tb.2, secOut (vs tb)))) ∧
    ((saveDoc ⟨root, TAGS.map (fun tb => (tb.1, tb.2, vs tb))⟩).1.filter
        (fun e => matchesTag "column" e.tag) = l.map (fun p => El.mk "column" p)) ∧
    (l.head? ≠ l.getLast? →
      (saveDoc ⟨root, TAGS.map (fun tb => (tb.1, tb.2, vs tb))⟩).2.secs ≠
        TAGS.map (fun tb => (tb.1, tb.2, vs tb))) := by
  have hsnd : (saveDoc ⟨root, TAGS.map (fun tb => (tb.1, tb.2, vs tb))⟩).2.secs =
      TAGS.map (fun tb => (tb.1, tb.2, secOut (vs tb))) := by
    rw [saveDoc_snd_secs]
    dsimp only
    rw [List.map_map]
    rfl
  have htags : ∀ s ∈ TAGS.map (fun tb => (tb.1, tb.2, vs tb)), s.1 ∈ TagNames := by
    intro s hs
    obtain ⟨tb, htb, rfl⟩ := List.mem_map.mp hs
    exact List.mem_map_of_mem Prod.fst htb
  have hnodup : ((TAGS.map (fun tb => (tb.1, tb.2, vs tb))).map (fun s => s.1)).Nodup := by
    rw [todoTags]
    exact tagNames_nodup
  have hpres' : ∀ s ∈ TAGS.map (fun tb => (tb.1, tb.2, vs tb)),
      (secFalsy s.2.2 = false → root.filter (fun e => matchesTag s.1 e.tag) ≠ []) ∧
      (secFalsy s.2.2 = true → root.filter (fun e => matchesTag s.1 e.tag) = []) := by
    intro s hs
    obtain ⟨tb, htb, rfl⟩ := List.mem_map.mp hs
    exact hpres tb htb
  have hfold := saveFold_spec (TAGS.map (fun tb => (tb.1, tb.2, vs tb))) root (-1)
    htags hnodup hdisj hpres'
  refine ⟨hsnd, ?_, ?_⟩
  · rw [saveDoc_fst]
    dsimp only
    have hc := hfold.1 (("column", true).1, ("column", true).2, vs ("column", true))
      (List.mem_map_of_mem _ (by decide : ("column", true) ∈ TAGS))
    rw [hcol] at hc
    exact hc
  · intro hne h
    rw [hsnd] at h
    have hc := map_eq_of_map_eq TAGS h ("column", true) (by decide)
    have h3 := congrArg (fun p => p.2.2) hc
    dsimp only at h3
    rw [hcol] at h3
    have hrev : l.reverse = l := SecVal.items.inj h3
    apply hne
    calc l.head? = l.reverse.head? := by rw [hrev]
    _ = l.getLast? := List.head?_reverse l

set_option maxRecDepth 8000 in
/-- C10 witness: a tree with columns a then b; after save the in-memory
columns slot is b, a — not the original order — while the written tree still
lists a before b. -/
theorem claim_C10_witness :
    Hdisj [El.mk "column" "a", El.mk "column" "b"] ∧
    (((saveDoc ⟨[El.mk "column" "a", El.mk "column" "b"],
        TAGS.map (fun tb => (tb.1, tb.2,
          parseSec [El.mk "column" "a", El.mk "column" "b"] tb.1 tb.2))⟩).2.secs =
      TAGS.map (fun tb => (tb.1, tb.2,
        secOut (parseSec [El.mk "column" "a", El.mk "column" "b"] tb.1 tb.2)))) ∧
    ((saveDoc ⟨[El.mk "column" "a", El.mk "column" "b"],
        TAGS.map (fun tb => (tb.1, tb.2,
          parseSec [El.mk "column" "a", El.mk "column" "b"] tb.1 tb.2))⟩).1.filter
        (fun e => matchesTag "column" e.tag) =
      (["a", "b"] : List String).map (fun p => El.mk "column" p)) ∧
    ((["a", "b"] : List String).head? ≠ (["a", "b"] : List String).getLast? →
      (saveDoc ⟨[El.mk "column" "a", El.mk "column" "b"],
        TAGS.map (fun tb => (tb.1, tb.2,
          parseSec [El.mk "column" "a", El.mk "column" "b"] tb.1 tb.2))⟩).2.secs ≠
        TAGS.map (fun tb => (tb.1, tb.2,
          parseSec [El.mk "column" "a", El.mk "column" "b"] tb.1 tb.2)))) :=
  ⟨by unfold Hdisj HdisjAt; decide,
   claim_C10_save_reverses [El.mk "column" "a", El.mk "column" "b"]
     (fun tb => parseSec [El.mk "column" "a", El.mk "column" "b"] tb.1 tb.2)
     ["a", "b"]
     (by unfold Hdisj HdisjAt; decide) (by decide) (by decide)⟩

end TableauUtilities
